import Mathlib

/-!
# Verification of the conversation-orchestration core

A shallow embedding, in Lean 4, of the data structures and engine logic of
the customer-support chatbot backend (`backend/data_structures.py` and
`backend/support_engine.py`), together with proofs and refutations of the
specification's claims about them.

Python strings are modelled as `List Char` (`Tok`); Python dicts whose
iteration order matters are modelled as insertion-ordered association lists;
Python float edge weights are modelled as `ℚ` (every weight the repository
constructs is a small decimal literal, represented exactly); code that can
raise an exception is modelled with `Option`, `none` being the raised error.
-/

/-- Python strings as lists of characters. -/
abbrev Tok := List Char

/-- Conversion from Lean string literals to the `Tok` model. -/
def str (s : String) : Tok := s.data

/-- Python `s.lower()` (ASCII case folding suffices for this repository). -/
def lowerL (s : Tok) : Tok := s.map Char.toLower

/-- Python `s.strip()`: drop whitespace at both ends. -/
def stripL (s : Tok) : Tok :=
  ((s.dropWhile Char.isWhitespace).reverse.dropWhile Char.isWhitespace).reverse

/-- Does `needle` occur at the head of `hay`? (helper for substring tests). -/
def subAt : Tok → Tok → Bool
  | [], _ => true
  | _ :: _, [] => false
  | a :: as, b :: bs => a == b && subAt as bs

/-- Python `needle in hay` substring containment.  Note that the empty
string is a substring of every string, exactly as in Python. -/
def containsSub (hay needle : Tok) : Bool :=
  if subAt needle hay then true
  else
    match hay with
    | [] => false
    | _ :: t => containsSub t needle

/-- Helper for `splitWs`: `acc` is the current word, reversed. -/
def splitWsAux : Tok → Tok → List Tok
  | [], acc => if acc = [] then [] else [acc.reverse]
  | c :: rest, acc =>
    if c.isWhitespace then
      if acc = [] then splitWsAux rest []
      else acc.reverse :: splitWsAux rest []
    else splitWsAux rest (c :: acc)

/-- Python `s.split()`: split on runs of whitespace, dropping empty pieces. -/
def splitWs (s : Tok) : List Tok := splitWsAux s []

/-- Lookup in an insertion-ordered association list (Python `dict.get`). -/
def lookupT {α : Type} : List (Tok × α) → Tok → Option α
  | [], _ => none
  | (k, v) :: t, key => if k = key then some v else lookupT t key

/-- Python `d[k] = v`: overwrite the existing slot, else append (dicts keep
insertion order). -/
def updD {α : Type} : List (Tok × α) → Tok → α → List (Tok × α)
  | [], k, v => [(k, v)]
  | (a, b) :: t, k, v => if a = k then (k, v) :: t else (a, b) :: updD t k v

theorem lookupT_updD_self {α : Type} (l : List (Tok × α)) (k : Tok) (v : α) :
    lookupT (updD l k v) k = some v := by
  induction l with
  | nil => simp [updD, lookupT]
  | cons h t ih =>
    obtain ⟨a, b⟩ := h
    by_cases hak : a = k <;> simp [updD, lookupT, hak, ih]

theorem lookupT_updD_other {α : Type} (l : List (Tok × α)) (k k' : Tok) (v : α)
    (h : k' ≠ k) : lookupT (updD l k v) k' = lookupT l k' := by
  have hkk : k ≠ k' := fun hh => h hh.symm
  induction l with
  | nil => simp [updD, lookupT, hkk]
  | cons hd t ih =>
    obtain ⟨a, b⟩ := hd
    by_cases hak : a = k
    · subst hak
      simp [updD, lookupT, hkk]
    · simp only [updD, if_neg hak]
      by_cases hak' : a = k' <;> simp [lookupT, hak', ih]

theorem lookupT_append_none {α : Type} (l m : List (Tok × α)) (k : Tok)
    (h : lookupT l k = none) : lookupT (l ++ m) k = lookupT m k := by
  induction l with
  | nil => simp [lookupT]
  | cons hd t ih =>
    obtain ⟨a, b⟩ := hd
    by_cases hak : a = k
    · simp [lookupT, hak] at h
    · simp [lookupT, hak] at h ⊢
      exact ih h

theorem lookupT_append_some {α : Type} (l m : List (Tok × α)) (k : Tok) (v : α)
    (h : lookupT l k = some v) : lookupT (l ++ m) k = some v := by
  induction l with
  | nil => simp [lookupT] at h
  | cons hd t ih =>
    obtain ⟨a, b⟩ := hd
    by_cases hak : a = k
    · simp [lookupT, hak] at h ⊢
      exact h
    · simp [lookupT, hak] at h ⊢
      exact ih h

theorem lookupT_mem_values {α : Type} (l : List (Tok × α)) (k : Tok) (v : α)
    (h : lookupT l k = some v) : v ∈ l.map Prod.snd := by
  induction l with
  | nil => simp [lookupT] at h
  | cons hd t ih =>
    obtain ⟨a, b⟩ := hd
    simp only [lookupT] at h
    by_cases hak : a = k
    · rw [if_pos hak] at h
      injection h with h
      subst h
      rw [List.map_cons]
      exact List.mem_cons_self _ _
    · rw [if_neg hak] at h
      rw [List.map_cons]
      exact List.mem_cons_of_mem _ (ih h)

/-!
## Union-Find (`UnionFind` in `data_structures.py`)

`parent` and `rank` are the two dicts of the Python class.  The Python
`find` is recursive with path compression; its recursion terminates on every
state the class can actually produce (the parent forest is acyclic because
rank strictly increases along parent pointers), which we capture by running
the recursion on a fuel of `sumRanks + 2`, an upper bound on the length of
any parent chain in such states (proved below), so the embedded function
computes exactly what the Python function computes on reachable states.
-/

structure UF where
  parent : List (Tok × Tok)
  rank : List (Tok × Nat)
  deriving DecidableEq

def UF.empty : UF := ⟨[], []⟩

/-- The parent map as a total function; tokens absent from the dict are
their own parent (Python's `find` installs exactly that binding first). -/
def pA (uf : UF) (x : Tok) : Tok := (lookupT uf.parent x).getD x

def UF.rankOf (uf : UF) (x : Tok) : Nat := (lookupT uf.rank x).getD 0

/-- `UnionFind._make_set`. -/
def UF.make_set (uf : UF) (x : Tok) : UF :=
  if (lookupT uf.parent x).isSome then uf
  else ⟨uf.parent ++ [(x, x)], uf.rank ++ [(x, 0)]⟩

def setParent (uf : UF) (x r : Tok) : UF := ⟨updD uf.parent x r, uf.rank⟩

def setRank (uf : UF) (x : Tok) (n : Nat) : UF := ⟨uf.parent, updD uf.rank x n⟩

def UF.sumRanks (uf : UF) : Nat := (uf.rank.map Prod.snd).sum

def UF.fuel (uf : UF) : Nat := uf.sumRanks + 2

/-- `UnionFind.find` with path compression, fuelled (see module comment). -/
def findAux : Nat → UF → Tok → Tok × UF
  | 0, uf, x => (x, uf)
  | n + 1, uf, x =>
    let uf1 := uf.make_set x
    let px := pA uf1 x
    if px = x then (x, uf1)
    else
      let rr := findAux n uf1 px
      (rr.1, setParent rr.2 x rr.1)

def UF.find (uf : UF) (x : Tok) : Tok × UF := findAux uf.fuel uf x

/-- `UnionFind.union` with union by rank. -/
def UF.union (uf : UF) (x y : Tok) : Tok × UF :=
  let fx := uf.find x
  let fy := fx.2.find y
  let rx := fx.1
  let ry := fy.1
  let uf2 := fy.2
  if rx = ry then (rx, uf2)
  else if uf2.rankOf rx < uf2.rankOf ry then (ry, setParent uf2 rx ry)
  else if uf2.rankOf ry < uf2.rankOf rx then (rx, setParent uf2 ry rx)
  else (rx, setRank (setParent uf2 ry rx) rx (uf2.rankOf rx + 1))

/-- `UnionFind.are_equivalent`. -/
def UF.are_equivalent (uf : UF) (x y : Tok) : Bool × UF :=
  let fx := uf.find x
  let fy := fx.2.find y
  (decide (fx.1 = fy.1), fy.2)

/-- A token that is its own parent. -/
def Root (uf : UF) (x : Tok) : Prop := pA uf x = x

/-- Invariant of all reachable states: rank strictly increases along
non-trivial parent pointers.  This is what makes `find` terminate. -/
def RankInv (uf : UF) : Prop :=
  ∀ x, pA uf x ≠ x → uf.rankOf x < uf.rankOf (pA uf x)

/-- Iterate the parent map. -/
def iterP (uf : UF) : Nat → Tok → Tok
  | 0, x => x
  | n + 1, x => iterP uf n (pA uf x)

/-- `r` is the root of `x`'s parent chain. -/
def IsRootOf (uf : UF) (x r : Tok) : Prop :=
  (∃ k, iterP uf k x = r) ∧ Root uf r

/-- `x` and `y` belong to the same equivalence class. -/
def sameClass (uf : UF) (x y : Tok) : Prop :=
  ∃ s, IsRootOf uf x s ∧ IsRootOf uf y s

theorem iterP_add (uf : UF) (a b : Nat) (x : Tok) :
    iterP uf (a + b) x = iterP uf b (iterP uf a x) := by
  induction a generalizing x with
  | zero => simp [iterP]
  | succ a ih =>
    have : a + 1 + b = (a + b) + 1 := by omega
    rw [this, iterP, iterP, ih]

theorem iterP_root (uf : UF) (r : Tok) (h : Root uf r) (k : Nat) :
    iterP uf k r = r := by
  induction k with
  | zero => rfl
  | succ k ih => rw [iterP, h, ih]

theorem isRootOf_unique (uf : UF) (x r r' : Tok)
    (h : IsRootOf uf x r) (h' : IsRootOf uf x r') : r = r' := by
  obtain ⟨⟨k, hk⟩, hr⟩ := h
  obtain ⟨⟨k', hk'⟩, hr'⟩ := h'
  rcases Nat.le_total k k' with hle | hle
  · obtain ⟨d, rfl⟩ := Nat.le.dest hle
    rw [iterP_add, hk, iterP_root uf r hr] at hk'
    exact hk'
  · obtain ⟨d, rfl⟩ := Nat.le.dest hle
    rw [iterP_add, hk', iterP_root uf r' hr'] at hk
    exact hk.symm

theorem pA_make_set (uf : UF) (x y : Tok) : pA (uf.make_set x) y = pA uf y := by
  unfold UF.make_set
  by_cases hs : (lookupT uf.parent x).isSome
  · simp [hs]
  · simp only [hs, if_false, Bool.false_eq_true]
    unfold pA
    simp only
    rcases hxy : lookupT uf.parent y with _ | v
    · rw [lookupT_append_none _ _ _ hxy]
      by_cases hyx : x = y
      · subst hyx
        simp [lookupT]
      · simp [lookupT, hyx, hxy]
    · rw [lookupT_append_some _ _ _ _ hxy]

theorem rankOf_make_set (uf : UF) (x y : Tok) :
    (uf.make_set x).rankOf y = uf.rankOf y := by
  unfold UF.make_set
  by_cases hs : (lookupT uf.parent x).isSome
  · simp [hs]
  · simp only [hs, if_false, Bool.false_eq_true]
    unfold UF.rankOf
    simp only
    rcases hxy : lookupT uf.rank y with _ | v
    · rw [lookupT_append_none _ _ _ hxy]
      by_cases hyx : x = y
      · subst hyx
        simp [lookupT]
      · simp [lookupT, hyx, hxy]
    · rw [lookupT_append_some _ _ _ _ hxy]

theorem sumRanks_make_set (uf : UF) (x : Tok) :
    (uf.make_set x).sumRanks = uf.sumRanks := by
  unfold UF.make_set
  by_cases hs : (lookupT uf.parent x).isSome
  · simp [hs]
  · simp [hs, UF.sumRanks]

theorem pA_setParent (uf : UF) (x r y : Tok) :
    pA (setParent uf x r) y = if y = x then r else pA uf y := by
  unfold pA setParent
  by_cases hyx : y = x
  · subst hyx
    simp [lookupT_updD_self]
  · simp [hyx, lookupT_updD_other _ _ _ _ hyx]

theorem rankOf_setParent (uf : UF) (x r y : Tok) :
    (setParent uf x r).rankOf y = uf.rankOf y := rfl

theorem sumRanks_setParent (uf : UF) (x r : Tok) :
    (setParent uf x r).sumRanks = uf.sumRanks := rfl

theorem pA_setRank (uf : UF) (x : Tok) (n : Nat) (y : Tok) :
    pA (setRank uf x n) y = pA uf y := rfl

theorem rankOf_setRank (uf : UF) (x : Tok) (n : Nat) (y : Tok) :
    (setRank uf x n).rankOf y = if y = x then n else uf.rankOf y := by
  unfold UF.rankOf setRank
  by_cases hyx : y = x
  · subst hyx
    simp [lookupT_updD_self]
  · simp [hyx, lookupT_updD_other _ _ _ _ hyx]

/-- Two states with the same parent function have the same chains. -/
theorem iterP_congr (a b : UF) (hp : ∀ z, pA a z = pA b z) (k : Nat) (x : Tok) :
    iterP a k x = iterP b k x := by
  induction k generalizing x with
  | zero => rfl
  | succ k ih => rw [iterP, iterP, hp, ih]

theorem root_congr (a b : UF) (hp : ∀ z, pA a z = pA b z) (x : Tok) :
    Root a x ↔ Root b x := by
  unfold Root
  rw [hp]

theorem isRootOf_congr (a b : UF) (hp : ∀ z, pA a z = pA b z) (x r : Tok) :
    IsRootOf a x r ↔ IsRootOf b x r := by
  unfold IsRootOf
  rw [root_congr a b hp]
  constructor
  · rintro ⟨⟨k, hk⟩, hr⟩
    exact ⟨⟨k, by rw [← iterP_congr a b hp, hk]⟩, hr⟩
  · rintro ⟨⟨k, hk⟩, hr⟩
    exact ⟨⟨k, by rw [iterP_congr a b hp, hk]⟩, hr⟩

theorem rankInv_congr (a b : UF) (hp : ∀ z, pA a z = pA b z)
    (hr : ∀ z, a.rankOf z = b.rankOf z) : RankInv a ↔ RankInv b := by
  unfold RankInv
  constructor
  · intro h x hx
    rw [← hp] at hx ⊢
    rw [← hr, ← hr]
    exact h x hx
  · intro h x hx
    rw [hp] at hx ⊢
    rw [hr, hr]
    exact h x hx

/-- Every rank value is at most the sum of all rank values. -/
theorem rankOf_le_sumRanks (uf : UF) (x : Tok) : uf.rankOf x ≤ uf.sumRanks := by
  unfold UF.rankOf UF.sumRanks
  rcases h : lookupT uf.rank x with _ | v
  · simp
  · simp only [Option.getD_some]
    exact List.single_le_sum (fun i _ => Nat.zero_le i) v (lookupT_mem_values _ _ _ h)

/-- Under `RankInv` every parent chain reaches a root within
`sumRanks - rank` steps. -/
theorem reach_root_aux (uf : UF) (h : RankInv uf) :
    ∀ n x, uf.sumRanks - uf.rankOf x ≤ n →
      ∃ k, k ≤ n ∧ Root uf (iterP uf k x) := by
  intro n
  induction n with
  | zero =>
    intro x hx
    by_cases hr : Root uf x
    · exact ⟨0, Nat.le_refl 0, hr⟩
    · exfalso
      have h1 := h x hr
      have h2 := rankOf_le_sumRanks uf (pA uf x)
      omega
  | succ n ih =>
    intro x hx
    by_cases hr : Root uf x
    · exact ⟨0, Nat.zero_le _, hr⟩
    · have h1 := h x hr
      have h2 := rankOf_le_sumRanks uf (pA uf x)
      have h3 : uf.sumRanks - uf.rankOf (pA uf x) ≤ n := by omega
      obtain ⟨k, hk, hroot⟩ := ih (pA uf x) h3
      exact ⟨k + 1, by omega, by rw [iterP]; exact hroot⟩

theorem reach_root (uf : UF) (h : RankInv uf) (x : Tok) :
    ∃ k, k + 1 ≤ uf.fuel ∧ Root uf (iterP uf k x) := by
  obtain ⟨k, hk, hroot⟩ :=
    reach_root_aux uf h (uf.sumRanks - uf.rankOf x) x (Nat.le_refl _)
  refine ⟨k, ?_, hroot⟩
  unfold UF.fuel
  omega

/-- Under `RankInv`, rank is monotone along a parent chain. -/
theorem rankOf_le_iterP (uf : UF) (h : RankInv uf) (k : Nat) (x : Tok) :
    uf.rankOf x ≤ uf.rankOf (iterP uf k x) := by
  induction k generalizing x with
  | zero => exact Nat.le_refl _
  | succ k ih =>
    rw [iterP]
    by_cases hr : pA uf x = x
    · rw [hr]
      exact ih x
    · exact Nat.le_trans (Nat.le_of_lt (h x hr)) (ih (pA uf x))

theorem rankOf_le_of_isRootOf (uf : UF) (h : RankInv uf) (x r : Tok)
    (hr : IsRootOf uf x r) : uf.rankOf x ≤ uf.rankOf r := by
  obtain ⟨⟨k, hk⟩, _⟩ := hr
  rw [← hk]
  exact rankOf_le_iterP uf h k x

/-- Path compression: re-pointing a non-root `x` directly at its root `r`
does not change the root of any token. -/
theorem compress_classes (uf : UF) (x r : Tok) (hx : ¬ Root uf x)
    (hr : IsRootOf uf x r) :
    ∀ y s, IsRootOf (setParent uf x r) y s ↔ IsRootOf uf y s := by
  have hrx : r ≠ x := by
    intro h
    subst h
    exact hx hr.2
  have hrootr' : Root (setParent uf x r) r := by
    unfold Root
    rw [pA_setParent, if_neg hrx]
    exact hr.2
  intro y s
  constructor
  · rintro ⟨⟨k, hk⟩, hs⟩
    have hsx : s ≠ x := by
      intro hsx
      unfold Root at hs
      rw [pA_setParent, if_pos hsx] at hs
      exact hrx (hs.trans hsx)
    have hroots : Root uf s := by
      unfold Root at hs ⊢
      rwa [pA_setParent, if_neg hsx] at hs
    induction k generalizing y with
    | zero =>
      simp only [iterP] at hk
      exact ⟨⟨0, hk⟩, hroots⟩
    | succ k ih =>
      simp only [iterP] at hk
      by_cases hyx : y = x
      · rw [pA_setParent, if_pos hyx, iterP_root _ _ hrootr' k] at hk
        rw [← hk, hyx]
        exact hr
      · rw [pA_setParent, if_neg hyx] at hk
        obtain ⟨⟨k', hk'⟩, _⟩ := ih (pA uf y) hk
        exact ⟨⟨k' + 1, by rw [iterP]; exact hk'⟩, hroots⟩
  · rintro ⟨⟨k, hk⟩, hs⟩
    have hsx : s ≠ x := by
      intro hsx
      rw [hsx] at hs
      exact hx hs
    have hroots : Root (setParent uf x r) s := by
      unfold Root
      rw [pA_setParent, if_neg hsx]
      exact hs
    refine ⟨?_, hroots⟩
    induction k generalizing y with
    | zero =>
      simp only [iterP] at hk
      exact ⟨0, hk⟩
    | succ k ih =>
      simp only [iterP] at hk
      by_cases hyx : y = x
      · have hys : IsRootOf uf y s := ⟨⟨k + 1, by rw [iterP]; exact hk⟩, hs⟩
        have hyr : IsRootOf uf y r := by
          rw [hyx]
          exact hr
        have hsr : s = r := isRootOf_unique uf y s r hys hyr
        refine ⟨1, ?_⟩
        have h1 : iterP (setParent uf x r) 1 y = pA (setParent uf x r) y := rfl
        rw [h1, pA_setParent, if_pos hyx, hsr]
      · obtain ⟨k', hk'⟩ := ih (pA uf y) hk
        refine ⟨k' + 1, ?_⟩
        rw [iterP, pA_setParent, if_neg hyx]
        exact hk'

/-- Linking root `a` beneath root `b`: the class of `a` is relabelled to
root `b`, every other class keeps its root. -/
theorem link_classes (uf : UF) (a b : Tok) (ha : Root uf a) (hb : Root uf b)
    (hab : a ≠ b) :
    ∀ y s, IsRootOf (setParent uf a b) y s ↔
      ((IsRootOf uf y s ∧ s ≠ a) ∨ (IsRootOf uf y a ∧ s = b)) := by
  have hba : b ≠ a := fun h => hab h.symm
  have hrootb' : Root (setParent uf a b) b := by
    unfold Root
    rw [pA_setParent, if_neg hba]
    exact hb
  intro y s
  constructor
  · rintro ⟨⟨k, hk⟩, hs⟩
    have hsa : s ≠ a := by
      intro hsa
      unfold Root at hs
      rw [pA_setParent, if_pos hsa] at hs
      exact hba (hs.trans hsa)
    have hroots : Root uf s := by
      unfold Root at hs ⊢
      rwa [pA_setParent, if_neg hsa] at hs
    induction k generalizing y with
    | zero =>
      simp only [iterP] at hk
      exact Or.inl ⟨⟨⟨0, hk⟩, hroots⟩, hsa⟩
    | succ k ih =>
      simp only [iterP] at hk
      by_cases hya : y = a
      · rw [pA_setParent, if_pos hya, iterP_root _ _ hrootb' k] at hk
        refine Or.inr ⟨?_, hk.symm⟩
        rw [hya]
        exact ⟨⟨0, rfl⟩, ha⟩
      · rw [pA_setParent, if_neg hya] at hk
        rcases ih (pA uf y) hk with ⟨⟨⟨k', hk'⟩, hs'⟩, hsa'⟩ | ⟨⟨⟨k', hk'⟩, _⟩, hsb⟩
        · exact Or.inl ⟨⟨⟨k' + 1, by rw [iterP]; exact hk'⟩, hs'⟩, hsa'⟩
        · exact Or.inr ⟨⟨⟨k' + 1, by rw [iterP]; exact hk'⟩, ha⟩, hsb⟩
  · rintro (⟨⟨⟨k, hk⟩, hs⟩, hsa⟩ | ⟨⟨⟨k, hk⟩, _⟩, hsb⟩)
    · have hroots : Root (setParent uf a b) s := by
        unfold Root
        rw [pA_setParent, if_neg hsa]
        exact hs
      refine ⟨?_, hroots⟩
      induction k generalizing y with
      | zero =>
        simp only [iterP] at hk
        exact ⟨0, hk⟩
      | succ k ih =>
        simp only [iterP] at hk
        by_cases hya : y = a
        · -- the chain from the root `a` stays at `a`, so `s = a`: contradiction
          exfalso
          have hza : pA uf y = y := by
            rw [hya]
            exact ha
          rw [hza] at hk
          have hys : IsRootOf uf y s := ⟨⟨k, hk⟩, hs⟩
          have hya' : IsRootOf uf y y := ⟨⟨0, rfl⟩, hya ▸ ha⟩
          have := isRootOf_unique uf y s y hys hya'
          rw [this, hya] at hsa
          exact hsa rfl
        · obtain ⟨k', hk'⟩ := ih (pA uf y) hk
          refine ⟨k' + 1, ?_⟩
          rw [iterP, pA_setParent, if_neg hya]
          exact hk'
    · rw [hsb]
      refine ⟨?_, hrootb'⟩
      induction k generalizing y with
      | zero =>
        simp only [iterP] at hk
        refine ⟨1, ?_⟩
        have h1 : iterP (setParent uf a b) 1 y = pA (setParent uf a b) y := rfl
        rw [h1, pA_setParent, if_pos hk]
      | succ k ih =>
        simp only [iterP] at hk
        by_cases hya : y = a
        · refine ⟨1, ?_⟩
          have h1 : iterP (setParent uf a b) 1 y = pA (setParent uf a b) y := rfl
          rw [h1, pA_setParent, if_pos hya]
        · obtain ⟨k', hk'⟩ := ih (pA uf y) hk
          refine ⟨k' + 1, ?_⟩
          rw [iterP, pA_setParent, if_neg hya]
          exact hk'

/-- Everything `find` guarantees: it returns the root of its argument's
chain, it preserves `RankInv`, it does not change any rank, it does not
change the total rank, and it does not change the root of any token. -/
theorem findAux_spec (n : Nat) :
    ∀ (uf : UF) (x : Tok), RankInv uf →
    (∃ k, k + 1 ≤ n ∧ Root uf (iterP uf k x)) →
      IsRootOf uf x (findAux n uf x).1 ∧
      RankInv (findAux n uf x).2 ∧
      (∀ z, (findAux n uf x).2.rankOf z = uf.rankOf z) ∧
      (findAux n uf x).2.sumRanks = uf.sumRanks ∧
      (∀ y s, IsRootOf (findAux n uf x).2 y s ↔ IsRootOf uf y s) := by
  induction n with
  | zero =>
    intro uf x _ hreach
    obtain ⟨k, hk, _⟩ := hreach
    omega
  | succ n ih =>
    intro uf x hinv hreach
    have hmp : ∀ z, pA (uf.make_set x) z = pA uf z := pA_make_set uf x
    have hmr : ∀ z, (uf.make_set x).rankOf z = uf.rankOf z := rankOf_make_set uf x
    have hinv1 : RankInv (uf.make_set x) := (rankInv_congr _ uf hmp hmr).mpr hinv
    by_cases hroot : pA (uf.make_set x) x = x
    · -- `x` is already a root: return it, state only extended by `make_set`
      have hrootx : Root uf x := by
        unfold Root
        rw [← hmp x]
        exact hroot
      have heq : findAux (n + 1) uf x = (x, uf.make_set x) := by
        simp only [findAux, hroot, if_pos]
      rw [heq]
      refine ⟨⟨⟨0, rfl⟩, hrootx⟩, hinv1, hmr, sumRanks_make_set uf x, ?_⟩
      intro y s
      exact isRootOf_congr _ uf hmp y s
    · -- recursive case with path compression
      set uf1 := uf.make_set x with huf1
      set px := pA uf1 x with hpx
      have heq : findAux (n + 1) uf x =
          ((findAux n uf1 px).1, setParent (findAux n uf1 px).2 x (findAux n uf1 px).1) := by
        simp only [findAux, ← huf1, ← hpx, hroot, if_neg, if_false]
      have hpxu : pA uf x = px := by
        rw [hpx, hmp x]
      have hreach1 : ∃ k, k + 1 ≤ n ∧ Root uf1 (iterP uf1 k px) := by
        obtain ⟨k, hk, hr⟩ := hreach
        rcases k with _ | k
        · simp only [iterP] at hr
          unfold Root at hr
          exfalso
          apply hroot
          rw [← hpxu]
          exact hr
        · refine ⟨k, by omega, ?_⟩
          simp only [iterP] at hr
          rw [root_congr uf1 uf hmp, iterP_congr uf1 uf hmp, ← hpxu]
          exact hr
      obtain ⟨hfr, hfinv, hfrk, hfsum, hfcls⟩ := ih uf1 px hinv1 hreach1
      set r := (findAux n uf1 px).1 with hrdef
      set uf2 := (findAux n uf1 px).2 with huf2
      -- the returned root, seen from the original state
      have hxr : IsRootOf uf x r := by
        obtain ⟨⟨k, hk⟩, hrro⟩ := hfr
        refine ⟨⟨k + 1, ?_⟩, (root_congr uf1 uf hmp r).mp hrro⟩
        rw [iterP, ← hmp x, ← hpx, ← iterP_congr uf1 uf hmp]
        exact hk
      have hxnotroot : ¬ Root uf x := by
        rw [← root_congr uf1 uf hmp]
        exact hroot
      have hrnx : r ≠ x := by
        intro hcontr
        apply hxnotroot
        rw [← hcontr]
        exact hxr.2
      -- `x` is still not a root in `uf2`, and `r` is still its root there
      have hxr2 : IsRootOf uf2 x r := by
        rw [hfcls, isRootOf_congr uf1 uf hmp]
        exact hxr
      have hxnotroot2 : ¬ Root uf2 x := by
        intro hcontr
        have h1 : IsRootOf uf2 x x := ⟨⟨0, rfl⟩, hcontr⟩
        rw [hfcls, isRootOf_congr uf1 uf hmp] at h1
        exact hrnx (isRootOf_unique uf x r x hxr h1)
      have hcomp := compress_classes uf2 x r hxnotroot2 hxr2
      rw [heq]
      refine ⟨hxr, ?_, ?_, ?_, ?_⟩
      · -- RankInv after compression
        intro z hz
        rw [pA_setParent] at hz ⊢
        by_cases hzx : z = x
        · rw [if_pos hzx] at hz ⊢
          rw [rankOf_setParent, rankOf_setParent]
          -- rank z < rank px ≤ rank r in the original state
          have h1 : uf.rankOf x < uf.rankOf px := by
            have h0 : pA uf x ≠ x := by
              rw [hpxu]
              exact hroot
            have h3 := hinv x h0
            rw [hpxu] at h3
            exact h3
          have h2 : uf1.rankOf px ≤ uf1.rankOf r :=
            rankOf_le_of_isRootOf uf1 hinv1 px r hfr
          rw [hmr px, hmr r] at h2
          rw [hfrk z, hfrk r, hmr z, hmr r, hzx]
          omega
        · rw [if_neg hzx] at hz ⊢
          rw [rankOf_setParent, rankOf_setParent]
          exact hfinv z hz
      · intro z
        rw [rankOf_setParent, hfrk z, hmr z]
      · rw [sumRanks_setParent, hfsum, sumRanks_make_set]
      · intro y s
        rw [hcomp y s, hfcls y s, isRootOf_congr uf1 uf hmp]

/-- `UF.find` satisfies the full specification on `RankInv` states. -/
theorem find_spec (uf : UF) (x : Tok) (h : RankInv uf) :
    IsRootOf uf x (uf.find x).1 ∧
    RankInv (uf.find x).2 ∧
    (∀ z, (uf.find x).2.rankOf z = uf.rankOf z) ∧
    (uf.find x).2.sumRanks = uf.sumRanks ∧
    (∀ y s, IsRootOf (uf.find x).2 y s ↔ IsRootOf uf y s) := by
  unfold UF.find
  exact findAux_spec uf.fuel uf x h (reach_root uf h x)

theorem sameClass_congr (a b : UF) (hp : ∀ z, pA a z = pA b z) (x y : Tok) :
    sameClass a x y ↔ sameClass b x y := by
  unfold sameClass
  constructor
  · rintro ⟨s, h1, h2⟩
    exact ⟨s, (isRootOf_congr a b hp x s).mp h1, (isRootOf_congr a b hp y s).mp h2⟩
  · rintro ⟨s, h1, h2⟩
    exact ⟨s, (isRootOf_congr a b hp x s).mpr h1, (isRootOf_congr a b hp y s).mpr h2⟩

/-- Linking root `A` beneath root `B` merges the two classes and never
splits an existing class. -/
theorem link_sameClass (uf : UF) (A B : Tok) (hA : Root uf A) (hB : Root uf B)
    (hAB : A ≠ B) :
    (∀ a b, sameClass uf a b → sameClass (setParent uf A B) a b) ∧
    (∀ a b, IsRootOf uf a A → IsRootOf uf b B → sameClass (setParent uf A B) a b) := by
  have hlink := link_classes uf A B hA hB hAB
  constructor
  · rintro a b ⟨s, hsa, hsb⟩
    by_cases hsA : s = A
    · subst hsA
      exact ⟨B, (hlink a B).mpr (Or.inr ⟨hsa, rfl⟩), (hlink b B).mpr (Or.inr ⟨hsb, rfl⟩)⟩
    · exact ⟨s, (hlink a s).mpr (Or.inl ⟨hsa, hsA⟩), (hlink b s).mpr (Or.inl ⟨hsb, hsA⟩)⟩
  · intro a b haA hbB
    exact ⟨B, (hlink a B).mpr (Or.inr ⟨haA, rfl⟩),
           (hlink b B).mpr (Or.inl ⟨hbB, fun h => hAB h.symm⟩)⟩

theorem link_rankInv (uf : UF) (A B : Tok) (hinv : RankInv uf)
    (hrank : uf.rankOf A < uf.rankOf B) : RankInv (setParent uf A B) := by
  intro z hz
  rw [pA_setParent] at hz ⊢
  rw [rankOf_setParent, rankOf_setParent]
  by_cases hzA : z = A
  · rw [if_pos hzA] at hz ⊢
    rw [hzA]
    exact hrank
  · rw [if_neg hzA] at hz ⊢
    exact hinv z hz

theorem linkBump_rankInv (uf : UF) (A B : Tok) (hinv : RankInv uf)
    (hB : Root uf B) (hAB : A ≠ B) (heq : uf.rankOf A = uf.rankOf B) :
    RankInv (setRank (setParent uf A B) B (uf.rankOf B + 1)) := by
  intro z hz
  rw [pA_setRank, pA_setParent] at hz ⊢
  rw [rankOf_setRank, rankOf_setRank, rankOf_setParent, rankOf_setParent]
  by_cases hzA : z = A
  · rw [if_pos hzA] at hz ⊢
    rw [hzA, if_neg hAB, if_pos rfl, heq]
    omega
  · rw [if_neg hzA] at hz ⊢
    by_cases hzB : z = B
    · exfalso
      apply hz
      rw [hzB]
      exact hB
    · rw [if_neg hzB]
      have h1 := hinv z hz
      by_cases hpB : pA uf z = B
      · rw [if_pos hpB]
        rw [hpB] at h1
        omega
      · rw [if_neg hpB]
        exact h1

/-- `UnionFind.union`: preserves the rank invariant, merges the classes of
its two arguments, and never splits an existing class. -/
theorem union_spec (uf : UF) (x y : Tok) (h : RankInv uf) :
    RankInv (uf.union x y).2 ∧
    sameClass (uf.union x y).2 x y ∧
    (∀ a b, sameClass uf a b → sameClass (uf.union x y).2 a b) := by
  obtain ⟨hx1, hinv1, hrk1, hsum1, hcls1⟩ := find_spec uf x h
  obtain ⟨hy2, hinv2, hrk2, hsum2, hcls2⟩ := find_spec (uf.find x).2 y hinv1
  set rx := (uf.find x).1 with hrx
  set uf1 := (uf.find x).2 with huf1
  set ry := (uf1.find y).1 with hry
  set uf2 := (uf1.find y).2 with huf2
  have hueq : uf.union x y =
      (if rx = ry then (rx, uf2)
       else if uf2.rankOf rx < uf2.rankOf ry then (ry, setParent uf2 rx ry)
       else if uf2.rankOf ry < uf2.rankOf rx then (rx, setParent uf2 ry rx)
       else (rx, setRank (setParent uf2 ry rx) rx (uf2.rankOf rx + 1))) := rfl
  have hxr2 : IsRootOf uf2 x rx := (hcls2 x rx).mpr ((hcls1 x rx).mpr hx1)
  have hyr2 : IsRootOf uf2 y ry := (hcls2 y ry).mpr hy2
  have hrootrx : Root uf2 rx := hxr2.2
  have hrootry : Root uf2 ry := hyr2.2
  have hclsu : ∀ a b, sameClass uf a b → sameClass uf2 a b := by
    intro a b ⟨s, h1, h2⟩
    exact ⟨s, (hcls2 a s).mpr ((hcls1 a s).mpr h1), (hcls2 b s).mpr ((hcls1 b s).mpr h2)⟩
  rw [hueq]
  by_cases hxy : rx = ry
  · rw [if_pos hxy]
    refine ⟨hinv2, ⟨ry, hxy ▸ hxr2, hyr2⟩, hclsu⟩
  · rw [if_neg hxy]
    by_cases hlt : uf2.rankOf rx < uf2.rankOf ry
    · rw [if_pos hlt]
      obtain ⟨hmono, hmerge⟩ := link_sameClass uf2 rx ry hrootrx hrootry hxy
      exact ⟨link_rankInv uf2 rx ry hinv2 hlt,
             hmerge x y hxr2 hyr2,
             fun a b hs => hmono a b (hclsu a b hs)⟩
    · rw [if_neg hlt]
      have hyx : ry ≠ rx := fun hh => hxy hh.symm
      by_cases hgt : uf2.rankOf ry < uf2.rankOf rx
      · rw [if_pos hgt]
        obtain ⟨hmono, hmerge⟩ := link_sameClass uf2 ry rx hrootry hrootrx hyx
        refine ⟨link_rankInv uf2 ry rx hinv2 hgt, ?_,
               fun a b hs => hmono a b (hclsu a b hs)⟩
        obtain ⟨s, h1, h2⟩ := hmerge y x hyr2 hxr2
        exact ⟨s, h2, h1⟩
      · rw [if_neg hgt]
        have heqr : uf2.rankOf ry = uf2.rankOf rx := by omega
        obtain ⟨hmono, hmerge⟩ := link_sameClass uf2 ry rx hrootry hrootrx hyx
        have hpeq : ∀ z, pA (setRank (setParent uf2 ry rx) rx (uf2.rankOf rx + 1)) z =
            pA (setParent uf2 ry rx) z := fun z => pA_setRank _ _ _ z
        refine ⟨linkBump_rankInv uf2 ry rx hinv2 hrootrx hyx heqr, ?_, ?_⟩
        · rw [sameClass_congr _ _ hpeq]
          obtain ⟨s, h1, h2⟩ := hmerge y x hyr2 hxr2
          exact ⟨s, h2, h1⟩
        · intro a b hs
          rw [sameClass_congr _ _ hpeq]
          exact hmono a b (hclsu a b hs)

/-- Apply a batch of `union` calls in list order (as
`SupportEngine._setup_intent_groups` does at startup). -/
def applyUnions (uf : UF) : List (Tok × Tok) → UF
  | [] => uf
  | (a, b) :: rest => applyUnions (uf.union a b).2 rest

/-- Two tokens are connected, directly or transitively, by a set of
union pairs. -/
inductive Conn (pairs : List (Tok × Tok)) : Tok → Tok → Prop
  | base {a b : Tok} : (a, b) ∈ pairs → Conn pairs a b
  | refl (a : Tok) : Conn pairs a a
  | symm {a b : Tok} : Conn pairs a b → Conn pairs b a
  | trans {a b c : Tok} : Conn pairs a b → Conn pairs b c → Conn pairs a c

/-- States reachable through the public `UnionFind` interface. -/
inductive UFReach : UF → Prop
  | init : UFReach UF.empty
  | find_step (uf : UF) (x : Tok) : UFReach uf → UFReach (uf.find x).2
  | union_step (uf : UF) (x y : Tok) : UFReach uf → UFReach (uf.union x y).2
  | equiv_step (uf : UF) (x y : Tok) : UFReach uf → UFReach (uf.are_equivalent x y).2

theorem rankInv_empty : RankInv UF.empty := by
  intro x hx
  exact absurd rfl hx

/-- Every reachable union-find state satisfies the rank invariant. -/
theorem ufReach_rankInv (uf : UF) (h : UFReach uf) : RankInv uf := by
  induction h with
  | init => exact rankInv_empty
  | find_step uf x _ ih => exact (find_spec uf x ih).2.1
  | union_step uf x y _ ih => exact (union_spec uf x y ih).1
  | equiv_step uf x y _ ih =>
    have h1 := (find_spec uf x ih).2.1
    exact (find_spec (uf.find x).2 y h1).2.1

theorem applyUnions_spec (init : UF) (hinv : RankInv init) (l : List (Tok × Tok)) :
    RankInv (applyUnions init l) ∧
    (∀ a b, sameClass init a b → sameClass (applyUnions init l) a b) ∧
    (∀ p ∈ l, sameClass (applyUnions init l) p.1 p.2) := by
  induction l generalizing init with
  | nil => exact ⟨hinv, fun a b hs => hs, fun p hp => absurd hp (List.not_mem_nil p)⟩
  | cons hd rest ih =>
    obtain ⟨a, b⟩ := hd
    obtain ⟨hinv', hmerged, hmono⟩ := union_spec init a b hinv
    obtain ⟨h1, h2, h3⟩ := ih (init.union a b).2 hinv'
    refine ⟨h1, ?_, ?_⟩
    · intro c d hs
      exact h2 c d (hmono c d hs)
    · intro p hp
      rcases List.mem_cons.mp hp with heq | hmem
    

      · subst heq
        exact h2 a b hmerged
      · exact h3 p hmem

/-- A `sameClass` fact transports along the class-preservation of `find`. -/
theorem sameClass_total (uf : UF) (h : RankInv uf) (x : Tok) :
    ∃ s, IsRootOf uf x s := by
  obtain ⟨k, _, hroot⟩ := reach_root uf h x
  exact ⟨iterP uf k x, ⟨k, rfl⟩, hroot⟩

theorem conn_sameClass (pairs : List (Tok × Tok)) (uf : UF) (h : RankInv uf)
    (hall : ∀ p ∈ pairs, sameClass uf p.1 p.2) (a b : Tok)
    (hconn : Conn pairs a b) : sameClass uf a b := by
  induction hconn with
  | base hmem => exact hall _ hmem
  | refl c =>
    obtain ⟨s, hs⟩ := sameClass_total uf h c
    exact ⟨s, hs, hs⟩
  | symm _ ih =>
    obtain ⟨s, h1, h2⟩ := ih
    exact ⟨s, h2, h1⟩
  | trans _ _ ih1 ih2 =>
    obtain ⟨s, h1, h2⟩ := ih1
    obtain ⟨t, h3, h4⟩ := ih2
    rename_i c d e _ _
    have hst : s = t := isRootOf_unique uf d s t h2 h3
    exact ⟨t, hst ▸ h1, h4⟩

/-- **C5.** After any batch of unions (in any order), two tokens connected
directly or transitively by the union pairs have equal `find` roots:
running `find(a)` and then `find(b)` on the resulting structure returns the
same canonical representative. -/
theorem C5_union_connects_classes (pairs run : List (Tok × Tok))
    (hmem : ∀ p, p ∈ run ↔ p ∈ pairs) (a b : Tok) (hconn : Conn pairs a b) :
    ((applyUnions UF.empty run).find a).1 =
      (((applyUnions UF.empty run).find a).2.find b).1 := by
  obtain ⟨hinv, _, hall⟩ := applyUnions_spec UF.empty rankInv_empty run
  set uf := applyUnions UF.empty run with hufdef
  have hallp : ∀ p ∈ pairs, sameClass uf p.1 p.2 := by
    intro p hp
    exact hall p ((hmem p).mpr hp)
  obtain ⟨s, hsa, hsb⟩ := conn_sameClass pairs uf hinv hallp a b hconn
  obtain ⟨hra, hinv1, _, _, hcls1⟩ := find_spec uf a hinv
  obtain ⟨hrb, _, _, _, _⟩ := find_spec (uf.find a).2 b hinv1
  have h1 : (uf.find a).1 = s := isRootOf_unique uf a _ s hra hsa
  have h2 : IsRootOf uf b ((uf.find a).2.find b).1 :=
    (hcls1 b _).mp hrb
  have h3 : ((uf.find a).2.find b).1 = s := isRootOf_unique uf b _ s h2 hsb
  rw [h1, h3]

/-- Closed instantiation of `C5_union_connects_classes`: after
`union("cancel","abort")` and `union("cancel","stop order")`, the tokens
`"abort"` and `"stop order"` (connected only transitively) get one root. -/
theorem C5_witness :
    (∀ p : Tok × Tok,
        p ∈ [(str "cancel", str "abort"), (str "cancel", str "stop order")] ↔
        p ∈ [(str "cancel", str "abort"), (str "cancel", str "stop order")]) ∧
    Conn [(str "cancel", str "abort"), (str "cancel", str "stop order")]
      (str "abort") (str "stop order") ∧
    ((applyUnions UF.empty
        [(str "cancel", str "abort"), (str "cancel", str "stop order")]).find
        (str "abort")).1 =
      (((applyUnions UF.empty
        [(str "cancel", str "abort"), (str "cancel", str "stop order")]).find
        (str "abort")).2.find (str "stop order")).1 := by
  have h1 : (str "cancel", str "abort") ∈
      [(str "cancel", str "abort"), (str "cancel", str "stop order")] := by simp
  have h2 : (str "cancel", str "stop order") ∈
      [(str "cancel", str "abort"), (str "cancel", str "stop order")] := by simp
  have hc : Conn [(str "cancel", str "abort"), (str "cancel", str "stop order")]
      (str "abort") (str "stop order") :=
    Conn.trans (Conn.symm (Conn.base h1)) (Conn.base h2)
  exact ⟨fun p => Iff.rfl, hc, C5_union_connects_classes _ _ (fun p => Iff.rfl) _ _ hc⟩

theorem are_equivalent_iff (uf : UF) (h : RankInv uf) (y z : Tok) :
    ((uf.are_equivalent y z).1 = true) ↔ sameClass uf y z := by
  obtain ⟨h1, hinv1, _, _, hcls1⟩ := find_spec uf y h
  obtain ⟨h2, _, _, _, _⟩ := find_spec (uf.find y).2 z hinv1
  have h2' : IsRootOf uf z ((uf.find y).2.find z).1 := (hcls1 z _).mp h2
  have he : (uf.are_equivalent y z).1 =
      decide ((uf.find y).1 = ((uf.find y).2.find z).1) := rfl
  rw [he, decide_eq_true_eq]
  constructor
  · intro heq
    refine ⟨(uf.find y).1, h1, ?_⟩
    rw [heq]
    exact h2'
  · rintro ⟨s, hsy, hsz⟩
    rw [isRootOf_unique uf y _ s h1 hsy, isRootOf_unique uf z _ s h2' hsz]

/-- **C6.** In every reachable union-find state: `find` returns a token
that is its own parent (a root, also in the post-state), `find` is
idempotent, and the path compression performed by a `find` call never
changes the classification: `are_equivalent` answers exactly the same
before and after. -/
theorem C6_find_root_idempotent_compression (uf : UF) (x : Tok) (h : UFReach uf) :
    pA (uf.find x).2 (uf.find x).1 = (uf.find x).1 ∧
    ((uf.find x).2.find x).1 = (uf.find x).1 ∧
    (∀ y z, ((uf.find x).2.are_equivalent y z).1 = (uf.are_equivalent y z).1) := by
  have hinv := ufReach_rankInv uf h
  obtain ⟨h1, hinv1, _, _, hcls1⟩ := find_spec uf x hinv
  have hroot' : IsRootOf (uf.find x).2 x (uf.find x).1 := (hcls1 x _).mpr h1
  refine ⟨hroot'.2, ?_, ?_⟩
  · obtain ⟨h2, _, _, _, _⟩ := find_spec (uf.find x).2 x hinv1
    exact isRootOf_unique (uf.find x).2 x _ _ h2 hroot'
  · intro y z
    have hsc : sameClass (uf.find x).2 y z ↔ sameClass uf y z := by
      constructor
      · rintro ⟨s, hy, hz⟩
        exact ⟨s, (hcls1 y s).mp hy, (hcls1 z s).mp hz⟩
      · rintro ⟨s, hy, hz⟩
        exact ⟨s, (hcls1 y s).mpr hy, (hcls1 z s).mpr hz⟩
    have hA := are_equivalent_iff (uf.find x).2 hinv1 y z
    have hB := are_equivalent_iff uf hinv y z
    cases hb : ((uf.find x).2.are_equivalent y z).1 with
    | true => exact (hB.mpr (hsc.mp (hA.mp hb))).symm
    | false =>
      cases hc : (uf.are_equivalent y z).1 with
      | false => rfl
      | true =>
        have hcontr := hA.mpr (hsc.mpr (hB.mp hc))
        rw [hcontr] at hb
        simp at hb

/-- Closed instantiation of `C6_find_root_idempotent_compression` at a
concrete reachable state (the state after `union("track","tracking")`). -/
theorem C6_witness :
    UFReach (UF.empty.union (str "track") (str "tracking")).2 ∧
    (pA ((UF.empty.union (str "track") (str "tracking")).2.find (str "tracking")).2
        ((UF.empty.union (str "track") (str "tracking")).2.find (str "tracking")).1 =
      ((UF.empty.union (str "track") (str "tracking")).2.find (str "tracking")).1 ∧
    (((UF.empty.union (str "track") (str "tracking")).2.find (str "tracking")).2.find
        (str "tracking")).1 =
      ((UF.empty.union (str "track") (str "tracking")).2.find (str "tracking")).1 ∧
    (∀ y z, (((UF.empty.union (str "track") (str "tracking")).2.find
          (str "tracking")).2.are_equivalent y z).1 =
        ((UF.empty.union (str "track") (str "tracking")).2.are_equivalent y z).1)) :=
  ⟨UFReach.union_step UF.empty (str "track") (str "tracking") UFReach.init,
   C6_find_root_idempotent_compression _ (str "tracking")
     (UFReach.union_step UF.empty (str "track") (str "tracking") UFReach.init)⟩

/-!
## Intent normalization (`SupportEngine.normalize_intent`)
-/

/-- The pure root of a token's parent chain (no mutation); the
specification-level description of what `find` returns. -/
def rootAux : Nat → UF → Tok → Tok
  | 0, _, x => x
  | n + 1, uf, x => if pA uf x = x then x else rootAux n uf (pA uf x)

def rootP (uf : UF) (x : Tok) : Tok := rootAux uf.fuel uf x

theorem rootAux_isRootOf (n : Nat) :
    ∀ (uf : UF) (x : Tok), RankInv uf →
    (∃ k, k + 1 ≤ n ∧ Root uf (iterP uf k x)) →
    IsRootOf uf x (rootAux n uf x) := by
  induction n with
  | zero =>
    intro uf x _ hreach
    obtain ⟨k, hk, _⟩ := hreach
    omega
  | succ n ih =>
    intro uf x hinv hreach
    by_cases hroot : pA uf x = x
    · rw [rootAux, if_pos hroot]
      exact ⟨⟨0, rfl⟩, hroot⟩
    · rw [rootAux, if_neg hroot]
      have hreach' : ∃ k, k + 1 ≤ n ∧ Root uf (iterP uf k (pA uf x)) := by
        obtain ⟨k, hk, hr⟩ := hreach
        rcases k with _ | k
        · simp only [iterP] at hr
          exact absurd hr hroot
        · simp only [iterP] at hr
          exact ⟨k, by omega, hr⟩
      obtain ⟨⟨k, hk⟩, hr⟩ := ih uf (pA uf x) hinv hreach'
      exact ⟨⟨k + 1, by rw [iterP]; exact hk⟩, hr⟩

theorem rootP_isRootOf (uf : UF) (h : RankInv uf) (x : Tok) :
    IsRootOf uf x (rootP uf x) :=
  rootAux_isRootOf uf.fuel uf x h (reach_root uf h x)

theorem find_eq_rootP (uf : UF) (h : RankInv uf) (x : Tok) :
    (uf.find x).1 = rootP uf x :=
  isRootOf_unique uf x _ _ (find_spec uf x h).1 (rootP_isRootOf uf h x)

/-- The `for word in words` loop of `normalize_intent`: the first word
whose canonical form differs from itself overrides `canonical`. -/
def wordLoop (uf : UF) (canonical : Tok) : List Tok → Tok × UF
  | [] => (canonical, uf)
  | w :: ws =>
    if (uf.find w).1 ≠ w then ((uf.find w).1, (uf.find w).2)
    else wordLoop (uf.find w).2 canonical ws

/-- Result dict of `normalize_intent` (the constant `data_structure`
display string is omitted). -/
structure IntentResult where
  original : Tok
  canonical : Tok
  normalized : Bool
  deriving DecidableEq

/-- `SupportEngine.normalize_intent`: lowercase and strip, `find` the whole
phrase, then scan the split words for one whose class differs from itself. -/
def normalize_intent (uf : UF) (user_input : Tok) : IntentResult × UF :=
  let user_lower := lowerL (stripL user_input)
  let f := uf.find user_lower
  let wr := wordLoop f.2 f.1 (splitWs user_lower)
  (⟨user_input, wr.1, decide (wr.1 ≠ user_lower)⟩, wr.2)

/-- What `normalize_intent` actually computes, stated over the initial
state only: the first constituent word with a non-trivial class wins;
only when no such word exists is the whole-phrase root returned. -/
def specNormalize (uf : UF) (raw : Tok) : Tok :=
  let t := lowerL (stripL raw)
  match (splitWs t).find? (fun w => decide (rootP uf w ≠ w)) with
  | some w => rootP uf w
  | none => rootP uf t

/-- The behaviour claim C3 asserts: the whole-phrase root, whenever it
differs from the trimmed input, is returned; the word scan applies only
otherwise. -/
def claimNormalize (uf : UF) (raw : Tok) : Tok :=
  let t := lowerL (stripL raw)
  let r := rootP uf t
  if r ≠ t then r
  else
    match (splitWs t).find? (fun w => decide (rootP uf w ≠ w)) with
    | some w => rootP uf w
    | none => t

theorem wordLoop_spec (uf0 : UF) (hinv0 : RankInv uf0) (ws : List Tok) :
    ∀ (uf : UF) (canonical : Tok), RankInv uf →
    (∀ y s, IsRootOf uf y s ↔ IsRootOf uf0 y s) →
    (wordLoop uf canonical ws).1 =
      (match ws.find? (fun w => decide (rootP uf0 w ≠ w)) with
       | some w => rootP uf0 w
       | none => canonical) := by
  induction ws with
  | nil =>
    intro uf canonical _ _
    rfl
  | cons w ws' ih =>
    intro uf canonical hinv hiff
    have hfs := find_spec uf w hinv
    have hw : (uf.find w).1 = rootP uf0 w := by
      have h1 : IsRootOf uf0 w (uf.find w).1 := (hiff w _).mp hfs.1
      exact isRootOf_unique uf0 w _ _ h1 (rootP_isRootOf uf0 hinv0 w)
    by_cases hcond : rootP uf0 w ≠ w
    · have hcond' : (uf.find w).1 ≠ w := by
        rw [hw]
        exact hcond
      rw [wordLoop, if_pos hcond', List.find?_cons_of_pos _ (by simp [hcond])]
      exact hw
    · have hcond' : ¬ (uf.find w).1 ≠ w := by
        rw [hw]
        exact hcond
      rw [wordLoop, if_neg hcond', List.find?_cons_of_neg _ (by simp at hcond ⊢; exact hcond)]
      exact ih (uf.find w).2 canonical hfs.2.1
        (fun y s => Iff.trans (hfs.2.2.2.2 y s) (hiff y s))

/-- The concrete union-find state refuting claim C3: built by
`union("baz", "foo bar")` and `union("qux", "foo")`. -/
def ufC3 : UF :=
  applyUnions UF.empty [(str "baz", str "foo bar"), (str "qux", str "foo")]

/-- **C3, counterexample.** On `ufC3`, the whole-phrase root of
`"foo bar"` is `"baz"`, which differs from the trimmed input — the claim
then demands that `normalize_intent` return `"baz"` — yet the code returns
`"qux"`, the canonical form of the word `"foo"`, because the word loop
unconditionally overrides the whole-phrase root. -/
theorem C3_counterexample :
    (ufC3.find (str "foo bar")).1 = str "baz" ∧
    str "baz" ≠ lowerL (stripL (str "foo bar")) ∧
    claimNormalize ufC3 (str "foo bar") = str "baz" ∧
    (normalize_intent ufC3 (str "foo bar")).1.canonical = str "qux" ∧
    str "qux" ≠ str "baz" := by
  refine ⟨by decide, by decide, by decide, by decide, by decide⟩

/-- **C3, amended.** `normalize_intent` lowercases and trims, then: the
canonical form of the *first* whitespace-split word whose class differs
from itself always wins; only when no such word exists is the whole-phrase
root returned (which is the trimmed, lowercased text itself when that
phrase's class is trivial).  The whole-phrase root is *not* given priority
when it differs from the input. -/
theorem C3_amended_word_override_wins (uf : UF) (raw : Tok) (h : RankInv uf) :
    (normalize_intent uf raw).1.canonical = specNormalize uf raw := by
  have hf := find_spec uf (lowerL (stripL raw)) h
  have hcan := find_eq_rootP uf h (lowerL (stripL raw))
  have hwl := wordLoop_spec uf h (splitWs (lowerL (stripL raw)))
    (uf.find (lowerL (stripL raw))).2 (uf.find (lowerL (stripL raw))).1
    hf.2.1 (fun y s => hf.2.2.2.2 y s)
  show (wordLoop (uf.find (lowerL (stripL raw))).2 (uf.find (lowerL (stripL raw))).1
      (splitWs (lowerL (stripL raw)))).1 = specNormalize uf raw
  rw [hwl, hcan]
  rfl

/-- Closed instantiation of `C3_amended_word_override_wins` on `ufC3`. -/
theorem C3_witness :
    RankInv ufC3 ∧
    (normalize_intent ufC3 (str "foo bar")).1.canonical =
      specNormalize ufC3 (str "foo bar") := by
  have hinv : RankInv ufC3 :=
    (applyUnions_spec UF.empty rankInv_empty
      [(str "baz", str "foo bar"), (str "qux", str "foo")]).1
  exact ⟨hinv, C3_amended_word_override_wins ufC3 (str "foo bar") hinv⟩

/-!
## Decision tree (`DecisionTree` in `data_structures.py`)
-/

structure DecisionNode where
  node_id : Tok
  message : Tok
  is_leaf : Bool
  options : List (Tok × Tok)
  deriving DecidableEq

structure DecisionTree where
  nodes : List (Tok × DecisionNode)
  root_id : Tok
  user_states : List (Tok × Tok)
  deriving DecidableEq

/-- `DecisionTree.__init__`: empty node map, root id `"root"`, no sessions.
No validation of any kind happens here. -/
def DecisionTree.init : DecisionTree := ⟨[], str "root", []⟩

/-- `DecisionTree.add_node`: registers (or overwrites) a node.  No check
that option targets exist. -/
def DecisionTree.add_node (t : DecisionTree) (node_id message : Tok)
    (is_leaf : Bool := false) (options : List (Tok × Tok) := []) : DecisionTree :=
  { t with nodes := updD t.nodes node_id ⟨node_id, message, is_leaf, options⟩ }

/-- `DecisionTree.get_current_state`. -/
def DecisionTree.get_current_state (t : DecisionTree) (user_id : Tok) : Tok :=
  (lookupT t.user_states user_id).getD t.root_id

/-- `DecisionTree.reset`. -/
def DecisionTree.reset (t : DecisionTree) (user_id : Tok) : DecisionTree :=
  { t with user_states := updD t.user_states user_id t.root_id }

/-- `DecisionTree.set_state`: only moves the cursor to an existing node. -/
def DecisionTree.set_state (t : DecisionTree) (user_id node_id : Tok) :
    Bool × DecisionTree :=
  if (lookupT t.nodes node_id).isSome then
    (true, { t with user_states := updD t.user_states user_id node_id })
  else (false, t)

/-- Result dict of `DecisionTree.get_response` (`no_match` is absent from
the transition dict in Python, which callers read back as falsy — here it
is an explicit `Bool`). -/
structure TreeResult where
  response : Tok
  node_id : Tok
  previous_node : Option Tok
  is_leaf : Bool
  available_options : List Tok
  no_match : Bool
  deriving DecidableEq

/-- The option scan of `get_response`: the first keyword that is a
substring of the lowered+stripped input or of which that input is a
substring (Python's bidirectional `in`). -/
def firstOptionMatch (options : List (Tok × Tok)) (user_lower : Tok) :
    Option (Tok × Tok) :=
  options.find? fun kv =>
    containsSub user_lower (lowerL kv.1) || containsSub (lowerL kv.1) user_lower

/-- The body of `get_response` once the effective current node is known. -/
def getResponseAt (t : DecisionTree) (cur : DecisionNode)
    (current_id user_id user_input : Tok) : TreeResult × DecisionTree :=
  let user_lower := lowerL (stripL user_input)
  let noMatch : TreeResult :=
    ⟨cur.message, current_id, none, cur.is_leaf, cur.options.map Prod.fst, true⟩
  match firstOptionMatch cur.options user_lower with
  | some kv =>
    -- Python: `if next_node_id and next_node_id in self.nodes`
    if kv.2 = [] then (noMatch, t)
    else
      match lookupT t.nodes kv.2 with
      | some next_node =>
        (⟨next_node.message, kv.2, some current_id, next_node.is_leaf,
          next_node.options.map Prod.fst, false⟩,
         { t with user_states := updD t.user_states user_id kv.2 })
      | none => (noMatch, t)
  | none => (noMatch, t)

/-- `DecisionTree.get_response`.  `none` models the `AttributeError` Python
raises when neither the current node nor the root exists. -/
def DecisionTree.get_response (t : DecisionTree) (user_id user_input : Tok) :
    Option (TreeResult × DecisionTree) :=
  let current_id := t.get_current_state user_id
  match lookupT t.nodes current_id with
  | some cur => some (getResponseAt t cur current_id user_id user_input)
  | none =>
    match lookupT t.nodes t.root_id with
    | some cur => some (getResponseAt t cur t.root_id user_id user_input)
    | none => none

theorem get_response_transition (t : DecisionTree) (user input : Tok)
    (cur : DecisionNode) (k tgt : Tok) (nd : DecisionNode)
    (hcur : lookupT t.nodes (t.get_current_state user) = some cur)
    (hm : firstOptionMatch cur.options (lowerL (stripL input)) = some (k, tgt))
    (htne : tgt ≠ [])
    (htgt : lookupT t.nodes tgt = some nd) :
    t.get_response user input = some
      (⟨nd.message, tgt, some (t.get_current_state user), nd.is_leaf,
        nd.options.map Prod.fst, false⟩,
       { t with user_states := updD t.user_states user tgt }) := by
  simp only [DecisionTree.get_response, hcur]
  simp only [getResponseAt, hm, htne, if_false, htgt]

theorem get_response_nomatch (t : DecisionTree) (user input : Tok)
    (cur : DecisionNode)
    (hcur : lookupT t.nodes (t.get_current_state user) = some cur)
    (hm : firstOptionMatch cur.options (lowerL (stripL input)) = none) :
    t.get_response user input = some
      (⟨cur.message, t.get_current_state user, none, cur.is_leaf,
        cur.options.map Prod.fst, true⟩, t) := by
  simp only [DecisionTree.get_response, hcur]
  simp only [getResponseAt, hm]

theorem get_response_dangling (t : DecisionTree) (user input : Tok)
    (cur : DecisionNode) (k tgt : Tok)
    (hcur : lookupT t.nodes (t.get_current_state user) = some cur)
    (hm : firstOptionMatch cur.options (lowerL (stripL input)) = some (k, tgt))
    (hmiss : lookupT t.nodes tgt = none) :
    t.get_response user input = some
      (⟨cur.message, t.get_current_state user, none, cur.is_leaf,
        cur.options.map Prod.fst, true⟩, t) := by
  simp only [DecisionTree.get_response, hcur]
  by_cases htne : tgt = []
  · simp only [getResponseAt, hm, htne]
    rw [if_pos trivial]
  · simp only [getResponseAt, hm, htne, if_false, hmiss]

/-- **C1.** `get_response` scans the current state's options in insertion
order for the first keyword `k` with `k.lower() ⊆ input` or `input ⊆
k.lower()` (input lowercased and stripped); when that keyword's target
exists the cursor moves there and the result reports the target's message,
the previous state id, the target's leaf flag and its option keywords;
when no option matches, the cursor is unchanged and the result repeats the
current state's message and options with `no_match = true`.  (The
hypothesis that no state has the empty-string id rules out Python's
truthiness artefact `if next_node_id and ...`; the engine's graph has no
empty ids.) -/
theorem C1_advance_follows_first_match (t : DecisionTree) (user input : Tok)
    (cur : DecisionNode)
    (hne : input ≠ [])
    (hempty : lookupT t.nodes [] = none)
    (hcur : lookupT t.nodes (t.get_current_state user) = some cur) :
    (∀ k tgt nd,
        firstOptionMatch cur.options (lowerL (stripL input)) = some (k, tgt) →
        lookupT t.nodes tgt = some nd →
        t.get_response user input = some
          (⟨nd.message, tgt, some (t.get_current_state user), nd.is_leaf,
            nd.options.map Prod.fst, false⟩,
           { t with user_states := updD t.user_states user tgt })) ∧
    (firstOptionMatch cur.options (lowerL (stripL input)) = none →
        t.get_response user input = some
          (⟨cur.message, t.get_current_state user, none, cur.is_leaf,
            cur.options.map Prod.fst, true⟩, t)) := by
  constructor
  · intro k tgt nd hm htgt
    have htne : tgt ≠ [] := by
      intro hh
      rw [hh, hempty] at htgt
      exact Option.noConfusion htgt
    exact get_response_transition t user input cur k tgt nd hcur hm htne htgt
  · intro hm
    exact get_response_nomatch t user input cur hcur hm

/-- Two-node dialogue graph used for concrete instantiations. -/
def t1root : DecisionNode :=
  ⟨str "root", str "welcome", false, [(str "order", str "orders_menu")]⟩

def t1orders : DecisionNode :=
  ⟨str "orders_menu", str "orders", false, [(str "back", str "root")]⟩

def t1 : DecisionTree :=
  ((DecisionTree.init).add_node (str "root") (str "welcome") false
      [(str "order", str "orders_menu")]).add_node (str "orders_menu")
    (str "orders") false [(str "back", str "root")]

/-- Closed instantiation of `C1_advance_follows_first_match`: the input
`"Order please"` matches keyword `"order"` at the root and moves the
cursor to `orders_menu`. -/
theorem C1_witness :
    ((str "Order please" : Tok) ≠ [] ∧
     lookupT t1.nodes [] = none ∧
     lookupT t1.nodes (t1.get_current_state (str "u")) = some t1root ∧
     firstOptionMatch t1root.options (lowerL (stripL (str "Order please"))) =
       some (str "order", str "orders_menu") ∧
     lookupT t1.nodes (str "orders_menu") = some t1orders) ∧
    t1.get_response (str "u") (str "Order please") = some
      (⟨t1orders.message, str "orders_menu", some (t1.get_current_state (str "u")),
        t1orders.is_leaf, t1orders.options.map Prod.fst, false⟩,
       { t1 with user_states := updD t1.user_states (str "u") (str "orders_menu") }) :=
  ⟨⟨by decide, by decide, by decide, by decide, by decide⟩,
   (C1_advance_follows_first_match t1 (str "u") (str "Order please") t1root
      (by decide) (by decide) (by decide)).1 (str "order") (str "orders_menu")
     t1orders (by decide) (by decide)⟩

/-- **C2, counterexample.** With the root's option table containing
`("order" → "orders_menu")`, a whitespace-only input produces a
*transition*, not `no_match`: in Python the empty string is a substring of
every keyword, so the first option always matches.  The result has
`no_match = false` and the session cursor moves to `orders_menu`. -/
theorem C2_counterexample :
    t1.get_response (str "u") (str " ") = some
      (⟨str "orders", str "orders_menu", some (str "root"), false,
        [str "back"], false⟩,
       { t1 with user_states := [(str "u", str "orders_menu")] }) ∧
    t1.get_current_state (str "u") ≠ str "orders_menu" := by
  refine ⟨by decide, by decide⟩

/-- Python's `"" in s` is `True` for every `s`. -/
theorem containsSub_nil_needle (hay : Tok) : containsSub hay [] = true := by
  cases hay with
  | nil => rfl
  | cons c t => rfl

/-- **C2, amended.** Empty (or whitespace-only) input is a substring of
every keyword, so `get_response` matches the *first* option in insertion
order: when the current state has at least one option whose (non-empty)
target exists, the cursor moves to that first target and `no_match` is not
set.  `no_match = true` results only when the state has no options or the
first option's target is missing or empty. -/
theorem C2_amended_empty_input_matches_first (t : DecisionTree)
    (user input : Tok) (cur : DecisionNode) (k tgt : Tok)
    (rest : List (Tok × Tok)) (nd : DecisionNode)
    (hws : stripL input = [])
    (hcur : lookupT t.nodes (t.get_current_state user) = some cur)
    (hopts : cur.options = (k, tgt) :: rest)
    (htne : tgt ≠ [])
    (htgt : lookupT t.nodes tgt = some nd) :
    t.get_response user input = some
      (⟨nd.message, tgt, some (t.get_current_state user), nd.is_leaf,
        nd.options.map Prod.fst, false⟩,
       { t with user_states := updD t.user_states user tgt }) := by
  have hm : firstOptionMatch cur.options (lowerL (stripL input)) = some (k, tgt) := by
    rw [hws, hopts]
    unfold firstOptionMatch
    apply List.find?_cons_of_pos
    have h2 := containsSub_nil_needle (lowerL k)
    simp only [lowerL] at h2
    simp only [lowerL, List.map_nil]
    rw [h2, Bool.or_true]
  exact get_response_transition t user input cur k tgt nd hcur hm htne htgt

/-- Closed instantiation of `C2_amended_empty_input_matches_first`. -/
theorem C2_witness :
    (stripL (str " ") = [] ∧
     lookupT t1.nodes (t1.get_current_state (str "u")) = some t1root ∧
     t1root.options = (str "order", str "orders_menu") :: [] ∧
     (str "orders_menu" : Tok) ≠ [] ∧
     lookupT t1.nodes (str "orders_menu") = some t1orders) ∧
    t1.get_response (str "u") (str " ") = some
      (⟨t1orders.message, str "orders_menu", some (t1.get_current_state (str "u")),
        t1orders.is_leaf, t1orders.options.map Prod.fst, false⟩,
       { t1 with user_states := updD t1.user_states (str "u") (str "orders_menu") }) :=
  ⟨⟨by decide, by decide, by decide, by decide, by decide⟩,
   C2_amended_empty_input_matches_first t1 (str "u") (str " ") t1root
     (str "order") (str "orders_menu") [] t1orders (by decide) (by decide)
     (by decide) (by decide) (by decide)⟩

/-- The dialogue graph refuting claim C4: one `add_node` call whose option
points at a state id that is never registered, built on a machine whose
root state is never registered either.  Construction succeeds. -/
def t4 : DecisionTree :=
  (DecisionTree.init).add_node (str "a") (str "msg") false
    [(str "k", str "missing")]

/-- **C4, counterexample.** Neither `DecisionTree.__init__` nor `add_node`
performs any validation: the graph `t4` is constructed without error even
though its only option targets a nonexistent state and the machine has no
root state.  Nothing is detected at graph-construction/startup time. -/
theorem C4_counterexample :
    (lookupT t4.nodes (str "a")).isSome = true ∧
    lookupT t4.nodes t4.root_id = none ∧
    lookupT t4.nodes (str "missing") = none ∧
    lookupT t4.nodes (str "a") =
      some ⟨str "a", str "msg", false, [(str "k", str "missing")]⟩ := by
  refine ⟨by decide, by decide, by decide, by decide⟩

/-- **C4, amended.** No validation happens at graph-construction time:
`add_node` registers any node unchecked and the constructor requires no
root.  A dangling option target is discovered only at first use, where
`get_response` degrades the matched transition to a `no_match` reply with
the cursor unchanged (and a missing root surfaces only when `advance`
needs it). -/
theorem C4_amended_validation_deferred_to_use (t : DecisionTree)
    (user input : Tok) (cur : DecisionNode) (k tgt : Tok)
    (hcur : lookupT t.nodes (t.get_current_state user) = some cur)
    (hm : firstOptionMatch cur.options (lowerL (stripL input)) = some (k, tgt))
    (hmiss : lookupT t.nodes tgt = none) :
    t.get_response user input = some
      (⟨cur.message, t.get_current_state user, none, cur.is_leaf,
        cur.options.map Prod.fst, true⟩, t) :=
  get_response_dangling t user input cur k tgt hcur hm hmiss

/-- Closed instantiation of `C4_amended_validation_deferred_to_use` on the
unvalidated graph `t4` (session parked at node `"a"`). -/
def t4s : DecisionTree := { t4 with user_states := [(str "u", str "a")] }

theorem C4_witness :
    (lookupT t4s.nodes (t4s.get_current_state (str "u")) =
       some ⟨str "a", str "msg", false, [(str "k", str "missing")]⟩ ∧
     firstOptionMatch [(str "k", str "missing")] (lowerL (stripL (str "k"))) =
       some (str "k", str "missing") ∧
     lookupT t4s.nodes (str "missing") = none) ∧
    t4s.get_response (str "u") (str "k") = some
      (⟨str "msg", t4s.get_current_state (str "u"), none, false,
        [str "k"], true⟩, t4s) :=
  ⟨⟨by decide, by decide, by decide⟩,
   C4_amended_validation_deferred_to_use t4s (str "u") (str "k")
     ⟨str "a", str "msg", false, [(str "k", str "missing")]⟩
     (str "k") (str "missing") (by decide) (by decide) (by decide)⟩

/-!
## Navigation history (`ConversationStack` in `data_structures.py`)

The Python list holds entries bottom-first; `push` appends at the end and,
at capacity, first drops the bottom entry with `list.pop(0)` — which
raises `IndexError` on an empty list, the one way `push` can fail
(capacity 0).  `none` models that exception.
-/

structure StackEntry where
  node_id : Tok
  message : Tok
  deriving DecidableEq

structure ConversationStack where
  stack : List StackEntry
  max_size : Nat
  deriving DecidableEq

def ConversationStack.mkEmpty (max_size : Nat := 10) : ConversationStack :=
  ⟨[], max_size⟩

/-- `ConversationStack.push`. -/
def ConversationStack.push (s : ConversationStack) (state_id message : Tok) :
    Option ConversationStack :=
  if s.stack.length ≥ s.max_size then
    match s.stack with
    | [] => none
    | _ :: rest => some { s with stack := rest ++ [⟨state_id, message⟩] }
  else some { s with stack := s.stack ++ [⟨state_id, message⟩] }

/-- `ConversationStack.pop`. -/
def ConversationStack.pop (s : ConversationStack) :
    Option StackEntry × ConversationStack :=
  match s.stack.getLast? with
  | none => (none, s)
  | some e => (some e, { s with stack := s.stack.dropLast })

/-- `ConversationStack.peek`. -/
def ConversationStack.peek (s : ConversationStack) : Option StackEntry :=
  s.stack.getLast?

def ConversationStack.size (s : ConversationStack) : Nat := s.stack.length

def ConversationStack.clear (s : ConversationStack) : ConversationStack :=
  { s with stack := [] }

/-- Fold a list of pushes. -/
def pushMany (s : ConversationStack) : List (Tok × Tok) → Option ConversationStack
  | [] => some s
  | (i, m) :: rest =>
    match s.push i m with
    | none => none
    | some s' => pushMany s' rest

/-- The operations a session can perform on its history. -/
inductive StackOp
  | push_op (state_id message : Tok)
  | pop_op
  | clear_op

def runOps (s : ConversationStack) : List StackOp → Option ConversationStack
  | [] => some s
  | StackOp.push_op i m :: rest =>
    match s.push i m with
    | none => none
    | some s' => runOps s' rest
  | StackOp.pop_op :: rest => runOps (s.pop).2 rest
  | StackOp.clear_op :: rest => runOps s.clear rest

theorem push_eq (s : ConversationStack) (i m : Tok)
    (hlen : s.stack.length ≤ s.max_size) (hcap : 1 ≤ s.max_size) :
    s.push i m = some { s with
      stack := (s.stack ++ [StackEntry.mk i m]).drop
        (s.stack.length + 1 - s.max_size) } := by
  unfold ConversationStack.push
  by_cases hfull : s.stack.length ≥ s.max_size
  · rw [if_pos hfull]
    have hexact : s.stack.length = s.max_size := by omega
    rcases hs : s.stack with _ | ⟨e, rest⟩
    · exfalso
      rw [hs] at hexact
      simp at hexact
      omega
    · have hd : (e :: rest).length + 1 - s.max_size = 1 := by
        rw [← hs, hexact]
        omega
      rw [hd]
      simp
  · rw [if_neg hfull]
    have hd : s.stack.length + 1 - s.max_size = 0 := by omega
    rw [hd, List.drop_zero]

theorem pushMany_spec : ∀ (l : List (Tok × Tok)) (s : ConversationStack),
    1 ≤ s.max_size → s.stack.length ≤ s.max_size →
    ∃ s', pushMany s l = some s' ∧ s'.max_size = s.max_size ∧
      s'.stack = (s.stack ++ l.map (fun p => StackEntry.mk p.1 p.2)).drop
        (s.stack.length + l.length - s.max_size) := by
  intro l
  induction l with
  | nil =>
    intro s hcap hlen
    refine ⟨s, rfl, rfl, ?_⟩
    simp only [List.map_nil, List.append_nil, List.length_nil]
    have hd : s.stack.length + 0 - s.max_size = 0 := by omega
    rw [hd, List.drop_zero]
  | cons hd rest ih =>
    obtain ⟨i, m⟩ := hd
    intro s hcap hlen
    have hpush := push_eq s i m hlen hcap
    set st1 : List StackEntry :=
      List.drop (s.stack.length + 1 - s.max_size) (s.stack ++ [StackEntry.mk i m])
      with hst1
    have hstep : pushMany s ((i, m) :: rest) =
        pushMany { s with stack := st1 } rest := by
      rw [pushMany, hpush]
    set s1 : ConversationStack := { s with stack := st1 } with hs1
    have hlen1eq : st1.length =
        (s.stack.length + 1) - (s.stack.length + 1 - s.max_size) := by
      rw [hst1, List.length_drop, List.length_append, List.length_singleton]
    have hlen1 : s1.stack.length ≤ s1.max_size := by
      show st1.length ≤ s.max_size
      rw [hlen1eq]
      omega
    obtain ⟨s', h1, h2, h3⟩ := ih s1 hcap hlen1
    refine ⟨s', by rw [hstep]; exact h1, h2, ?_⟩
    rw [h3]
    have hd1le : s.stack.length + 1 - s.max_size ≤
        (s.stack ++ [StackEntry.mk i m]).length := by
      rw [List.length_append, List.length_singleton]
      omega
    have hshape : s.stack ++ [StackEntry.mk i m] ++
        rest.map (fun p => StackEntry.mk p.1 p.2) =
        s.stack ++ ((i, m) :: rest).map (fun p => StackEntry.mk p.1 p.2) := by
      rw [List.append_assoc]
      rfl
    show List.drop (st1.length + rest.length - s.max_size)
        (List.drop (s.stack.length + 1 - s.max_size)
           (s.stack ++ [StackEntry.mk i m]) ++
         rest.map (fun p => StackEntry.mk p.1 p.2)) =
      List.drop (s.stack.length + ((i, m) :: rest).length - s.max_size)
        (s.stack ++ ((i, m) :: rest).map (fun p => StackEntry.mk p.1 p.2))
    rw [← List.drop_append_of_le_length hd1le, List.drop_drop, hshape]
    congr 1
    rw [hlen1eq]
    simp only [List.length_cons]
    omega

theorem runOps_bounded : ∀ (ops : List StackOp) (s : ConversationStack),
    s.stack.length ≤ s.max_size →
    ∀ s', runOps s ops = some s' →
      s'.stack.length ≤ s'.max_size ∧ s'.max_size = s.max_size := by
  intro ops
  induction ops with
  | nil =>
    intro s hlen s' h
    injection h with h
    subst h
    exact ⟨hlen, rfl⟩
  | cons op rest ih =>
    intro s hlen s' h
    cases op with
    | push_op i m =>
      rw [runOps] at h
      rcases hp : s.push i m with _ | s1
      · rw [hp] at h
        exact Option.noConfusion h
      · rw [hp] at h
        have hlen1 : s1.stack.length ≤ s1.max_size := by
          unfold ConversationStack.push at hp
          by_cases hfull : s.stack.length ≥ s.max_size
          · rw [if_pos hfull] at hp
            rcases hs : s.stack with _ | ⟨e, tl⟩
            · rw [hs] at hp
              exact Option.noConfusion hp
            · rw [hs] at hp
              injection hp with hp
              subst hp
              simp
              rw [hs] at hlen
              simp at hlen
              omega
          · rw [if_neg hfull] at hp
            injection hp with hp
            subst hp
            simp
            omega
        obtain ⟨ha, hb⟩ := ih s1 hlen1 s' h
        have hmax : s1.max_size = s.max_size := by
          unfold ConversationStack.push at hp
          by_cases hfull : s.stack.length ≥ s.max_size
          · rw [if_pos hfull] at hp
            rcases hs : s.stack with _ | ⟨e, tl⟩
            · rw [hs] at hp
              exact Option.noConfusion hp
            · rw [hs] at hp
              injection hp with hp
              subst hp
              rfl
          · rw [if_neg hfull] at hp
            injection hp with hp
            subst hp
            rfl
        exact ⟨ha, hb.trans hmax⟩
    | pop_op =>
      rw [runOps] at h
      have hlen1 : (s.pop).2.stack.length ≤ (s.pop).2.max_size := by
        unfold ConversationStack.pop
        rcases hg : s.stack.getLast? with _ | e
        · simpa using hlen
        · simp only
          have := List.length_dropLast s.stack
          simp
          omega
      obtain ⟨ha, hb⟩ := ih (s.pop).2 hlen1 s' h
      have hmax : (s.pop).2.max_size = s.max_size := by
        unfold ConversationStack.pop
        rcases hg : s.stack.getLast? with _ | e <;> rfl
      exact ⟨ha, hb.trans hmax⟩
    | clear_op =>
      rw [runOps] at h
      have hlen1 : s.clear.stack.length ≤ s.clear.max_size := by
        simp [ConversationStack.clear]
      obtain ⟨ha, hb⟩ := ih s.clear hlen1 s' h
      exact ⟨ha, hb⟩

/-- **C7, counterexample.** At capacity 0 the claim fails: a push "at
capacity" does not evict the oldest entry and retain the new one — Python
executes `self._stack.pop(0)` on an empty list and raises `IndexError`,
so no stack with exactly `c = 0` items results. -/
theorem C7_counterexample :
    (ConversationStack.mkEmpty 0).push (str "root") (str "Welcome") = none ∧
    pushMany (ConversationStack.mkEmpty 0) [(str "root", str "Welcome")] = none := by
  refine ⟨by decide, by decide⟩

/-- **C7, amended.** For every capacity `c ≥ 1`: pushing any sequence of
items onto a fresh history leaves exactly `min n c` items — the *last* `c`
pushes, in order, with the most recent on top and the oldest evicted first
— and after any sequence of push/pop/clear operations the length never
exceeds `c`. -/
theorem C7_amended_bounded_fifo_eviction (c : Nat) (hc : 1 ≤ c) :
    (∀ l : List (Tok × Tok), ∃ s',
        pushMany (ConversationStack.mkEmpty c) l = some s' ∧
        s'.max_size = c ∧
        s'.stack.length = min l.length c ∧
        s'.stack = (l.map (fun p => StackEntry.mk p.1 p.2)).drop (l.length - c)) ∧
    (∀ ops : List StackOp, ∀ s',
        runOps (ConversationStack.mkEmpty c) ops = some s' →
        s'.stack.length ≤ c) := by
  constructor
  · intro l
    obtain ⟨s', h1, h2, h3⟩ :=
      pushMany_spec l (ConversationStack.mkEmpty c) hc (by simp [ConversationStack.mkEmpty])
    refine ⟨s', h1, h2, ?_, ?_⟩
    · rw [h3]
      show (List.drop _ (([] : List StackEntry) ++ _)).length = _
      rw [List.nil_append, List.length_drop, List.length_map]
      show l.length - (0 + l.length - c) = _
      omega
    · rw [h3]
      show List.drop (0 + l.length - c) (([] : List StackEntry) ++ _) = _
      rw [List.nil_append, Nat.zero_add]
  · intro ops s' h
    obtain ⟨h1, h2⟩ := runOps_bounded ops (ConversationStack.mkEmpty c)
      (by simp [ConversationStack.mkEmpty]) s' h
    rw [h2] at h1
    exact h1

/-- Closed instantiation of `C7_amended_bounded_fifo_eviction` at capacity
2: pushing three items leaves exactly the last two. -/
theorem C7_witness :
    1 ≤ 2 ∧
    (∃ s', pushMany (ConversationStack.mkEmpty 2)
        [(str "root", str "a"), (str "orders_menu", str "b"), (str "order_track", str "c")] =
          some s' ∧
        s'.max_size = 2 ∧
        s'.stack.length = min 3 2 ∧
        s'.stack = [StackEntry.mk (str "orders_menu") (str "b"),
                    StackEntry.mk (str "order_track") (str "c")]) := by
  refine ⟨by decide, ?_⟩
  obtain ⟨s', h1, h2, h3, h4⟩ := (C7_amended_bounded_fifo_eviction 2 (by decide)).1
    [(str "root", str "a"), (str "orders_menu", str "b"), (str "order_track", str "c")]
  exact ⟨s', h1, h2, h3, by rw [h4]; decide⟩

/-!
## Action recommender (`WeightedGraph` in `data_structures.py`)

Edge weights are Python floats in the source; every weight the repository
constructs is a short decimal literal, so `ℚ` represents them exactly and
Python's comparisons coincide with `ℚ`'s.  Python's `sorted(...,
key=weight, reverse=True)` is a stable descending sort, modelled by
`sortDesc`.  The derived `confidence` display string of a suggestion is
presentation-only and omitted.
-/

structure WEdge where
  target : Tok
  weight : ℚ
  label : Tok
  deriving DecidableEq

structure WeightedGraph where
  graph : List (Tok × List WEdge)
  node_labels : List (Tok × Tok)
  deriving DecidableEq

def WeightedGraph.mkEmpty : WeightedGraph := ⟨[], []⟩

/-- `WeightedGraph.add_node` (idempotent on the adjacency list). -/
def WeightedGraph.add_node (g : WeightedGraph) (node_id : Tok)
    (label : Tok := []) : WeightedGraph :=
  ⟨if (lookupT g.graph node_id).isSome then g.graph else g.graph ++ [(node_id, [])],
   updD g.node_labels node_id (if label = [] then node_id else label)⟩

/-- Append `e` to the edge list stored under `key`. -/
def appendEdge : List (Tok × List WEdge) → Tok → WEdge → List (Tok × List WEdge)
  | [], _, _ => []
  | (k, es) :: t, key, e =>
    if k = key then (k, es ++ [e]) :: t else (k, es) :: appendEdge t key e

/-- `WeightedGraph.add_edge`: creates missing endpoints, then appends the
edge (parallel edges are kept). -/
def WeightedGraph.add_edge (g : WeightedGraph) (from_node to_node : Tok)
    (weight : ℚ := 1) (label : Tok := []) : WeightedGraph :=
  let g1 := if (lookupT g.graph from_node).isSome then g else g.add_node from_node
  let g2 := if (lookupT g1.graph to_node).isSome then g1 else g1.add_node to_node
  ⟨appendEdge g2.graph from_node ⟨to_node, weight, if label = [] then to_node else label⟩,
   g2.node_labels⟩

/-- Stable insertion for a descending sort: `e` goes after every element
with weight `≥ e.weight` and before the first strictly smaller one —
exactly the ordering `sorted(..., reverse=True)` produces. -/
def insertDesc (e : WEdge) : List WEdge → List WEdge
  | [] => [e]
  | h :: t => if e.weight < h.weight then h :: insertDesc e t else e :: h :: t

/-- Stable descending sort by weight (Python `sorted(edges, key=lambda x:
x[1], reverse=True)`). -/
def sortDesc : List WEdge → List WEdge
  | [] => []
  | h :: t => insertDesc h (sortDesc t)

structure Suggestion where
  action : Tok
  label : Tok
  weight : ℚ
  deriving DecidableEq

/-- `WeightedGraph.get_suggestions`. -/
def WeightedGraph.get_suggestions (g : WeightedGraph) (current_node : Tok)
    (top_k : Nat := 3) : List Suggestion :=
  match lookupT g.graph current_node with
  | none => []
  | some edges =>
    if edges = [] then []
    else ((sortDesc edges).take top_k).map fun e => ⟨e.target, e.label, e.weight⟩

theorem mem_insertDesc (e x : WEdge) (l : List WEdge) :
    x ∈ insertDesc e l ↔ x = e ∨ x ∈ l := by
  induction l with
  | nil => simp [insertDesc]
  | cons h t ih =>
    by_cases hw : e.weight < h.weight
    · simp only [insertDesc, if_pos hw, List.mem_cons, ih]
      tauto
    · simp only [insertDesc, if_neg hw, List.mem_cons]

/-- `insertDesc` preserves descending (by weight) pairwise order. -/
theorem pairwise_insertDesc (e : WEdge) (l : List WEdge)
    (h : l.Pairwise (fun a b => b.weight ≤ a.weight)) :
    (insertDesc e l).Pairwise (fun a b => b.weight ≤ a.weight) := by
  induction l with
  | nil => simp [insertDesc]
  | cons hd t ih =>
    rcases List.pairwise_cons.mp h with ⟨hhd, ht⟩
    by_cases hw : e.weight < hd.weight
    · rw [insertDesc, if_pos hw]
      rw [List.pairwise_cons]
      constructor
      · intro x hx
        rcases (mem_insertDesc e x t).mp hx with hxe | hxt
        · rw [hxe]
          exact le_of_lt hw
        · exact hhd x hxt
      · exact ih ht
    · rw [insertDesc, if_neg hw]
      rw [List.pairwise_cons]
      constructor
      · intro x hx
        rcases List.mem_cons.mp hx with hxh | hxt
        · rw [hxh]
          exact le_of_not_lt hw
        · exact le_trans (hhd x hxt) (le_of_not_lt hw)
      · exact h
  

theorem pairwise_sortDesc (l : List WEdge) :
    (sortDesc l).Pairwise (fun a b => b.weight ≤ a.weight) := by
  induction l with
  | nil => simp [sortDesc]
  | cons h t ih => exact pairwise_insertDesc h (sortDesc t) ih

/-- Stability of the insertion: the inserted element goes in front of the
equal-weight elements already present (they came later in the original
list), and every other weight class is untouched. -/
theorem filter_insertDesc (e : WEdge) (l : List WEdge) (w : ℚ) :
    (insertDesc e l).filter (fun x => x.weight = w) =
      (if e.weight = w then e :: l.filter (fun x => x.weight = w)
       else l.filter (fun x => x.weight = w)) := by
  induction l with
  | nil =>
    by_cases he : e.weight = w <;> simp [insertDesc, he]
  | cons h t ih =>
    by_cases hw : e.weight < h.weight
    · rw [insertDesc, if_pos hw]
      by_cases he : e.weight = w
      · have hh : ¬ h.weight = w := by
          intro hcontr
          rw [he, hcontr] at hw
          exact lt_irrefl w hw
        rw [if_pos he]
        simp only [List.filter_cons, hh, decide_eq_true_eq, if_neg, ih, if_pos he]
        simp [hh]
      · rw [if_neg he]
        simp only [List.filter_cons]
        by_cases hh : h.weight = w <;> simp [hh, ih, he]
    · rw [insertDesc, if_neg hw]
      by_cases he : e.weight = w <;> by_cases hh : h.weight = w <;>
        simp [List.filter_cons, he, hh]

theorem filter_sortDesc (l : List WEdge) (w : ℚ) :
    (sortDesc l).filter (fun x => x.weight = w) =
      l.filter (fun x => x.weight = w) := by
  induction l with
  | nil => rfl
  | cons h t ih =>
    rw [sortDesc, filter_insertDesc]
    by_cases hh : h.weight = w
    · rw [if_pos hh, ih]
      simp [List.filter_cons, hh]
    · rw [if_neg hh, ih]
      simp [List.filter_cons, hh]

/-- **C8.** `get_suggestions` returns at most `top_k` items; the returned
weights are non-increasing; the equal-weight suggestions appear in their
original insertion order (a sublist of the original equal-weight edges, in
order, because only a prefix of the stable sort is kept); and an unknown
node, or a node without outgoing edges, yields `[]` — never an error. -/
theorem C8_suggestions_topk_sorted_stable (g : WeightedGraph)
    (node : Tok) (k : Nat) :
    (g.get_suggestions node k).length ≤ k ∧
    (g.get_suggestions node k).Pairwise (fun a b => b.weight ≤ a.weight) ∧
    (∀ w : ℚ, ((g.get_suggestions node k).filter (fun x => x.weight = w)).Sublist
        ((((lookupT g.graph node).getD []).filter (fun e => e.weight = w)).map
          (fun e => Suggestion.mk e.target e.label e.weight))) ∧
    (lookupT g.graph node = none → g.get_suggestions node k = []) ∧
    (lookupT g.graph node = some [] → g.get_suggestions node k = []) := by
  rcases hl : lookupT g.graph node with _ | edges
  · refine ⟨?_, ?_, ?_, fun _ => ?_, fun hcontr => ?_⟩
    · simp [WeightedGraph.get_suggestions, hl]
    · simp [WeightedGraph.get_suggestions, hl]
    · intro w
      simp [WeightedGraph.get_suggestions, hl]
    · simp [WeightedGraph.get_suggestions, hl]
    · exact Option.noConfusion hcontr
  · have hgs : g.get_suggestions node k =
        (if edges = [] then []
         else ((sortDesc edges).take k).map fun e => ⟨e.target, e.label, e.weight⟩) := by
      simp [WeightedGraph.get_suggestions, hl]
    by_cases hne : edges = []
    · rw [hgs, if_pos hne]
      refine ⟨by simp, by simp, fun w => by simp, fun hcontr => rfl, fun _ => rfl⟩
    · rw [hgs, if_neg hne]
      refine ⟨?_, ?_, ?_, ?_, ?_⟩
      · rw [List.length_map]
        exact le_trans (List.length_take_le k _) (le_refl k)
      · apply List.Pairwise.map
        · intro a b hab
          exact hab
        · exact List.Pairwise.sublist (List.take_sublist k _) (pairwise_sortDesc edges)
      · intro w
        simp only [Option.getD_some]
        show (((sortDesc edges).take k).map
            (fun e => Suggestion.mk e.target e.label e.weight)).filter
            (fun x => x.weight = w) |>.Sublist _
        have hcomm : (((sortDesc edges).take k).map
            (fun e => Suggestion.mk e.target e.label e.weight)).filter
            (fun x => x.weight = w) =
            (((sortDesc edges).take k).filter (fun e => e.weight = w)).map
            (fun e => Suggestion.mk e.target e.label e.weight) := by
          rw [List.filter_map]
          rfl
        rw [hcomm]
        apply List.Sublist.map
        have h1 : (((sortDesc edges).take k).filter (fun e => e.weight = w)).Sublist
            ((sortDesc edges).filter (fun e => e.weight = w)) :=
          List.Sublist.filter _ (List.take_sublist k _)
        rw [filter_sortDesc] at h1
        simpa using h1
      · intro hcontr
        exact Option.noConfusion hcontr
      · intro hcontr
        injection hcontr with hcontr
        exact absurd hcontr hne

/-!
## Orchestrator navigation (`SupportEngine.process_message`,
`SupportEngine.reset_conversation`)

The model keeps the state that claims C9 and C10 are about: the decision
tree (cursor map + node graph) and the per-user navigation stacks.  The
collaborator branches of `process_message` that return *without touching
either* — tracking-number lookup, order-id lookup, cart show/add/remove,
wishlist and profile commands, and an FAQ hit — are abstracted by
`Route.early` (they differ only in the reply text); which branch fires is
irrelevant to the claims, and quantifying over `Route` covers every
possibility, including any normalized text the union-find step could
produce (`Route.advance`).  The guards the claims depend on — the empty
check, the back-command list, and the cart-undo guard — are modelled
verbatim.  `none` models an uncaught Python exception.
-/

/-- Python `s.startswith(p)`. -/
def startsWithTok (s p : Tok) : Bool := subAt p s

structure EngineNav where
  tree : DecisionTree
  ustacks : List (Tok × ConversationStack)
  deriving DecidableEq

/-- `SupportEngine._get_user_stack` (default capacity 10). -/
def getUserStack (e : EngineNav) (user : Tok) : ConversationStack × EngineNav :=
  match lookupT e.ustacks user with
  | some s => (s, e)
  | none =>
    (ConversationStack.mkEmpty 10,
     { e with ustacks := updD e.ustacks user (ConversationStack.mkEmpty 10) })

/-- Which collaborator branch of `process_message` fires (see the section
comment). -/
inductive Route
  | early
  | advance (normalized : Tok)

structure NavResult where
  response : Tok
  module : Tok
  node_id : Option Tok
  deriving DecidableEq

def backCommands : List Tok :=
  [str "back", str "go back", str "previous", str "undo"]

/-- Everything of `process_message` after the back-navigation block. -/
def restNav (e : EngineNav) (user message : Tok) (route : Route) :
    Option (NavResult × EngineNav) :=
  match route with
  | Route.early => some (⟨[], str "Collaborator", none⟩, e)
  | Route.advance norm =>
    let current_state := e.tree.get_current_state user
    -- `if message_lower == "undo" and current_state.startswith("cart")`
    if lowerL message = str "undo" ∧ startsWithTok current_state (str "cart") = true then
      some (⟨[], str "Cart Undo", none⟩, e)
    else
      match e.tree.get_response user norm with
      | none => none
      | some (res, tree') =>
        match lookupT e.ustacks user with
        | none => none
        | some st =>
          match st.push res.node_id (res.response.take 50) with
          | none => none
          | some st' =>
            some (⟨res.response, str "Conversation Flow", some res.node_id⟩,
                  ⟨tree', updD e.ustacks user st'⟩)

/-- `SupportEngine.process_message`, restricted to the navigation state. -/
def processNav (e : EngineNav) (user message : Tok) (route : Route) :
    Option (NavResult × EngineNav) :=
  let message := stripL message
  if message = [] then
    some (⟨str "Please enter a message.", str "Input Validation", none⟩, e)
  else
    let se := getUserStack e user
    let stack := se.1
    let e1 := se.2
    if lowerL message ∈ backCommands then
      if stack.size > 1 then
        let stack1 := (stack.pop).2
        match stack1.peek with
        | some prev =>
          let e2 : EngineNav :=
            ⟨(e1.tree.set_state user prev.node_id).2, updD e1.ustacks user stack1⟩
          match lookupT e2.tree.nodes prev.node_id with
          | some node =>
            some (⟨node.message, str "Navigation", some prev.node_id⟩, e2)
          | none => none
        | none =>
          -- Python falls through to the rest of the handler here
          restNav ⟨e1.tree, updD e1.ustacks user stack1⟩ user message route
      else
        let tree1 := e1.tree.reset user
        match lookupT tree1.nodes (str "root") with
        | some root_node =>
          match (stack.clear).push (str "root") (root_node.message.take 50) with
          | some stack3 =>
            some (⟨root_node.message, str "Navigation", some (str "root")⟩,
                  ⟨tree1, updD e1.ustacks user stack3⟩)
          | none => none
        | none => none
    else
      restNav e1 user message route

/-- `SupportEngine.reset_conversation` (the fetched-but-unused
`root_node` of the source is omitted: it cannot fail). -/
def reset_conversation (e : EngineNav) (user : Tok) : Option EngineNav :=
  let tree1 := e.tree.reset user
  let se := getUserStack ⟨tree1, e.ustacks⟩ user
  match (se.1.clear).push (str "root") (str "Welcome") with
  | some st' => some ⟨tree1, updD se.2.ustacks user st'⟩
  | none => none

/-- A navigation stack is well-formed w.r.t. a tree: usable capacity and
every entry's node id exists in the graph. -/
def StackOk (t : DecisionTree) (s : ConversationStack) : Prop :=
  1 ≤ s.max_size ∧
  ∀ en ∈ s.stack, (lookupT t.nodes en.node_id).isSome = true

/-- The engine invariant behind claims C9 and C10. -/
def EngineInv (e : EngineNav) : Prop :=
  e.tree.root_id = str "root" ∧
  (lookupT e.tree.nodes (str "root")).isSome = true ∧
  ∀ u s, lookupT e.ustacks u = some s → StackOk e.tree s

/-- Engine states reachable from startup (any dialogue graph containing a
`"root"` node — `_build_decision_tree` adds one first — and no sessions). -/
inductive EngineReach : EngineNav → Prop
  | init (t : DecisionTree) (h1 : t.root_id = str "root")
      (h2 : (lookupT t.nodes (str "root")).isSome = true) :
      EngineReach ⟨t, []⟩
  | msg_step {e : EngineNav} {user message : Tok} {route : Route}
      {res : NavResult} {e' : EngineNav} : EngineReach e →
      processNav e user message route = some (res, e') → EngineReach e'
  | reset_step {e : EngineNav} {user : Tok} {e' : EngineNav} : EngineReach e →
      reset_conversation e user = some e' → EngineReach e'

theorem getResponseAt_spec (t : DecisionTree) (cur : DecisionNode)
    (cid user input : Tok) (hcid : lookupT t.nodes cid = some cur) :
    (getResponseAt t cur cid user input).2.nodes = t.nodes ∧
    (getResponseAt t cur cid user input).2.root_id = t.root_id ∧
    (lookupT t.nodes (getResponseAt t cur cid user input).1.node_id).isSome = true := by
  unfold getResponseAt
  rcases hm : firstOptionMatch cur.options (lowerL (stripL input)) with _ | kv
  · simp [hm, hcid]
  · by_cases he : kv.2 = []
    · simp [hm, he, hcid]
    · rcases hn : lookupT t.nodes kv.2 with _ | nd
      · simp [hm, he, hn, hcid]
      · simp [hm, he, hn]

theorem get_response_spec (t : DecisionTree) (user input : Tok)
    (res : TreeResult) (t' : DecisionTree)
    (h : t.get_response user input = some (res, t')) :
    t'.nodes = t.nodes ∧ t'.root_id = t.root_id ∧
    (lookupT t.nodes res.node_id).isSome = true := by
  rcases h1 : lookupT t.nodes (t.get_current_state user) with _ | cur
  · rcases h2 : lookupT t.nodes t.root_id with _ | cur
    · simp only [DecisionTree.get_response, h1, h2] at h
      exact Option.noConfusion h
    · simp only [DecisionTree.get_response, h1, h2] at h
      injection h with h
      have hs := getResponseAt_spec t cur t.root_id user input h2
      rw [h] at hs
      exact hs
  · simp only [DecisionTree.get_response, h1] at h
    injection h with h
    have hs := getResponseAt_spec t cur (t.get_current_state user) user input h1
    rw [h] at hs
    exact hs

theorem get_response_isSome (t : DecisionTree) (user input : Tok)
    (hroot : (lookupT t.nodes t.root_id).isSome = true) :
    (t.get_response user input).isSome = true := by
  rcases h1 : lookupT t.nodes (t.get_current_state user) with _ | cur
  · rcases h2 : lookupT t.nodes t.root_id with _ | cur
    · rw [h2] at hroot
      simp at hroot
    · simp [DecisionTree.get_response, h1, h2]
  · simp [DecisionTree.get_response, h1]

/-- With usable capacity, `push` never fails. -/
theorem push_total (s : ConversationStack) (i m : Tok) (hcap : 1 ≤ s.max_size) :
    ∃ s', s.push i m = some s' ∧ s'.max_size = s.max_size ∧
      ∀ en ∈ s'.stack, en = StackEntry.mk i m ∨ en ∈ s.stack := by
  unfold ConversationStack.push
  by_cases hfull : s.stack.length ≥ s.max_size
  · rw [if_pos hfull]
    rcases hs : s.stack with _ | ⟨e, rest⟩
    · exfalso
      rw [hs] at hfull
      simp at hfull
      omega
    · refine ⟨_, rfl, rfl, ?_⟩
      intro en hen
      simp only [List.mem_append, List.mem_singleton] at hen
      rcases hen with hin | hmk
      · right
        exact List.mem_cons_of_mem _ hin
      · left
        exact hmk
  · rw [if_neg hfull]
    refine ⟨_, rfl, rfl, ?_⟩
    intro en hen
    simp only [List.mem_append, List.mem_singleton] at hen
    tauto

theorem stackOk_congr (t t' : DecisionTree) (s : ConversationStack)
    (hn : t'.nodes = t.nodes) (h : StackOk t s) : StackOk t' s := by
  refine ⟨h.1, ?_⟩
  intro en hen
  rw [hn]
  exact h.2 en hen

/-- Installing a well-formed stack for one user keeps the map invariant. -/
theorem stacksInv_updD (t : DecisionTree) (m : List (Tok × ConversationStack))
    (user : Tok) (snew : ConversationStack)
    (hall : ∀ u s, lookupT m u = some s → StackOk t s) (hnew : StackOk t snew) :
    ∀ u s, lookupT (updD m user snew) u = some s → StackOk t s := by
  intro u s hu
  by_cases huu : u = user
  · subst huu
    rw [lookupT_updD_self] at hu
    injection hu with hu
    subst hu
    exact hnew
  · rw [lookupT_updD_other _ _ _ _ huu] at hu
    exact hall u s hu

theorem getUserStack_spec (e : EngineNav) (user : Tok) (hinv : EngineInv e) :
    StackOk e.tree (getUserStack e user).1 ∧
    EngineInv (getUserStack e user).2 ∧
    (getUserStack e user).2.tree = e.tree ∧
    lookupT (getUserStack e user).2.ustacks user = some (getUserStack e user).1 := by
  obtain ⟨hr1, hr2, hr3⟩ := hinv
  unfold getUserStack
  rcases hl : lookupT e.ustacks user with _ | s
  · refine ⟨⟨by simp [ConversationStack.mkEmpty], by simp [ConversationStack.mkEmpty]⟩,
      ⟨hr1, hr2, ?_⟩, rfl, ?_⟩
    · exact stacksInv_updD e.tree e.ustacks user _ hr3
        ⟨by simp [ConversationStack.mkEmpty], by simp [ConversationStack.mkEmpty]⟩
    · exact lookupT_updD_self _ _ _
  · exact ⟨hr3 user s hl, ⟨hr1, hr2, hr3⟩, rfl, hl⟩

/-- After `pop`, the remaining entries are among the original entries, and
with more than one entry present `peek` succeeds with one of them. -/
theorem pop_peek_spec (s : ConversationStack) (hsz : s.size > 1) :
    ∃ prev, (s.pop).2.peek = some prev ∧ prev ∈ s.stack ∧
      ∀ en ∈ (s.pop).2.stack, en ∈ s.stack := by
  unfold ConversationStack.pop ConversationStack.peek
  rcases hg : s.stack.getLast? with _ | e
  · exfalso
    unfold ConversationStack.size at hsz
    rcases hs : s.stack with _ | ⟨a, t⟩
    · rw [hs] at hsz
      simp at hsz
    · rw [hs] at hg
      simp [List.getLast?] at hg
  · simp only
    have hlen : s.stack.dropLast.length = s.stack.length - 1 := List.length_dropLast _
    have hlen2 : s.stack.dropLast.length ≥ 1 := by
      unfold ConversationStack.size at hsz
      omega
    rcases hg2 : s.stack.dropLast.getLast? with _ | prev
    · exfalso
      rw [List.getLast?_eq_none_iff] at hg2
      rw [hg2] at hlen2
      simp at hlen2
    · refine ⟨prev, rfl, ?_, ?_⟩
      · have hmem : prev ∈ s.stack.dropLast := List.mem_of_mem_getLast? hg2
        exact List.dropLast_sublist s.stack |>.mem hmem
      · intro en hen
        exact List.dropLast_sublist s.stack |>.mem hen

theorem set_state_keeps (t : DecisionTree) (u n : Tok) :
    (t.set_state u n).2.nodes = t.nodes ∧ (t.set_state u n).2.root_id = t.root_id := by
  unfold DecisionTree.set_state
  by_cases h : (lookupT t.nodes n).isSome <;> simp [h]

theorem pop_max (s : ConversationStack) : (s.pop).2.max_size = s.max_size := by
  unfold ConversationStack.pop
  rcases h : s.stack.getLast? with _ | e <;> rfl

/-- The post-back-block part of `process_message` succeeds and preserves
the engine invariant whenever the user's stack is installed. -/
theorem restNav_spec (e : EngineNav) (user message : Tok) (route : Route)
    (hinv : EngineInv e) (hstack : (lookupT e.ustacks user).isSome = true) :
    ∃ res e', restNav e user message route = some (res, e') ∧ EngineInv e' := by
  obtain ⟨hr1, hr2, hr3⟩ := hinv
  cases route with
  | early => exact ⟨⟨[], str "Collaborator", none⟩, e, rfl, hr1, hr2, hr3⟩
  | advance norm =>
    by_cases hcart : lowerL message = str "undo" ∧
        startsWithTok (e.tree.get_current_state user) (str "cart") = true
    · refine ⟨⟨[], str "Cart Undo", none⟩, e, ?_, hr1, hr2, hr3⟩
      simp only [restNav, hcart, and_self, if_pos]
    · have hroot' : (lookupT e.tree.nodes e.tree.root_id).isSome = true := by
        rw [hr1]
        exact hr2
      have hgr := get_response_isSome e.tree user norm hroot'
      rcases hg : e.tree.get_response user norm with _ | p
      · rw [hg] at hgr
        simp at hgr
      · obtain ⟨res, tree'⟩ := p
        obtain ⟨hn, hri, hnid⟩ := get_response_spec e.tree user norm res tree' hg
        rcases hs : lookupT e.ustacks user with _ | st
        · rw [hs] at hstack
          simp at hstack
        · have hok := hr3 user st hs
          obtain ⟨st', hpush, hmax, hents⟩ :=
            push_total st res.node_id (res.response.take 50) hok.1
          refine ⟨⟨res.response, str "Conversation Flow", some res.node_id⟩,
            ⟨tree', updD e.ustacks user st'⟩, ?_, ?_⟩
          · simp only [restNav, hcart, if_false]
            rw [hg, hs]
            simp only [hpush]
          · refine ⟨by rw [hri, hr1], by rw [hn]; exact hr2, ?_⟩
            apply stacksInv_updD
            · intro u s hu
              exact stackOk_congr e.tree tree' s hn (hr3 u s hu)
            · refine ⟨by rw [hmax]; exact hok.1, ?_⟩
              intro en hen
              rcases hents en hen with hnew | hold
              · rw [hnew, hn]
                exact hnid
              · rw [hn]
                exact hok.2 en hold

/-- `process_message` (navigation part) always succeeds on invariant
states, preserves the invariant, and handles every back-navigation
command — `"back"`, `"go back"`, `"previous"`, `"undo"` — entirely inside
the back block, tagging the reply `"Navigation"`. -/
theorem processNav_spec (e : EngineNav) (user message : Tok) (route : Route)
    (hinv : EngineInv e) :
    ∃ res e', processNav e user message route = some (res, e') ∧ EngineInv e' ∧
      (stripL message ≠ [] → lowerL (stripL message) ∈ backCommands →
        res.module = str "Navigation") := by
  by_cases hemp : stripL message = []
  · refine ⟨⟨str "Please enter a message.", str "Input Validation", none⟩, e,
      ?_, hinv, ?_⟩
    · simp only [processNav, hemp, if_pos]
    · intro hne _
      exact absurd hemp hne
  · obtain ⟨hsok, hinv1, htree1, hlook1⟩ := getUserStack_spec e user hinv
    by_cases hback : lowerL (stripL message) ∈ backCommands
    · by_cases hsz : (getUserStack e user).1.size > 1
      · obtain ⟨prev, hpeek, hprevmem, hsub⟩ := pop_peek_spec _ hsz
        have hkeep := set_state_keeps (getUserStack e user).2.tree user prev.node_id
        have hprev : (lookupT ((getUserStack e user).2.tree.set_state user
            prev.node_id).2.nodes prev.node_id).isSome = true := by
          rw [hkeep.1, htree1]
          exact hsok.2 prev hprevmem
        rcases hnode : lookupT ((getUserStack e user).2.tree.set_state user
            prev.node_id).2.nodes prev.node_id with _ | node
        · rw [hnode] at hprev
          simp at hprev
        · refine ⟨⟨node.message, str "Navigation", some prev.node_id⟩,
            ⟨((getUserStack e user).2.tree.set_state user prev.node_id).2,
             updD (getUserStack e user).2.ustacks user
               ((getUserStack e user).1.pop).2⟩, ?_, ?_, fun _ _ => rfl⟩
          · simp only [processNav, hemp, if_neg, hback, if_pos, hsz, hpeek, hnode]
            simp
          · obtain ⟨hi1, hi2, hi3⟩ := hinv1
            refine ⟨by rw [hkeep.2]; exact hi1, by rw [hkeep.1]; exact hi2, ?_⟩
            apply stacksInv_updD
            · intro u s hu
              exact stackOk_congr _ _ s (by rw [hkeep.1]) (hi3 u s hu)
            · refine ⟨?_, ?_⟩
              · rw [pop_max]
                exact hsok.1
              · intro en hen
                rw [hkeep.1, htree1]
                exact hsok.2 en (hsub en hen)
      · obtain ⟨hi1, hi2, hi3⟩ := hinv1
        have hroot2 : (lookupT ((getUserStack e user).2.tree.reset user).nodes
            (str "root")).isSome = true := hi2
        rcases hroot3 : lookupT ((getUserStack e user).2.tree.reset user).nodes
            (str "root") with _ | root_node
        · rw [hroot3] at hroot2
          simp at hroot2
        · obtain ⟨stack3, hpush, hmax, hents⟩ :=
            push_total ((getUserStack e user).1.clear) (str "root")
              (root_node.message.take 50) hsok.1
          refine ⟨⟨root_node.message, str "Navigation", some (str "root")⟩,
            ⟨(getUserStack e user).2.tree.reset user,
             updD (getUserStack e user).2.ustacks user stack3⟩, ?_, ?_,
            fun _ _ => rfl⟩
          · simp only [processNav, hemp, if_neg, hback, if_pos, hsz, if_false,
              hroot3, hpush]
          · refine ⟨hi1, hi2, ?_⟩
            apply stacksInv_updD
            · intro u s hu
              exact hi3 u s hu
            · refine ⟨by rw [hmax]; exact hsok.1, ?_⟩
              intro en hen
              rcases hents en hen with hnew | hold
              · rw [hnew]
                exact hroot2
              · simp [ConversationStack.clear] at hold
    · obtain ⟨res, e', hr, hinv'⟩ := restNav_spec (getUserStack e user).2 user
        (stripL message) route hinv1 (by rw [hlook1]; rfl)
      refine ⟨res, e', ?_, hinv', fun _ hcontr => absurd hcontr hback⟩
      simp only [processNav, hemp, if_neg, hback, if_false]
      exact hr

theorem reset_conversation_spec (e : EngineNav) (user : Tok)
    (hinv : EngineInv e) :
    ∃ e', reset_conversation e user = some e' ∧ EngineInv e' := by
  obtain ⟨hr1, hr2, hr3⟩ := hinv
  have hinvm : EngineInv ⟨e.tree.reset user, e.ustacks⟩ := ⟨hr1, hr2, hr3⟩
  obtain ⟨hsok, hinv1, htree1, hlook1⟩ :=
    getUserStack_spec ⟨e.tree.reset user, e.ustacks⟩ user hinvm
  obtain ⟨st', hpush, hmax, hents⟩ :=
    push_total ((getUserStack ⟨e.tree.reset user, e.ustacks⟩ user).1.clear)
      (str "root") (str "Welcome") hsok.1
  obtain ⟨hi1, hi2, hi3⟩ := hinv1
  refine ⟨⟨e.tree.reset user,
    updD (getUserStack ⟨e.tree.reset user, e.ustacks⟩ user).2.ustacks user st'⟩,
    ?_, ?_⟩
  · simp only [reset_conversation, hpush]
  · refine ⟨hr1, hr2, ?_⟩
    apply stacksInv_updD
    · intro u s hu
      have := hi3 u s hu
      rw [htree1] at this
      exact this
    · refine ⟨by rw [hmax]; exact hsok.1, ?_⟩
      intro en hen
      rcases hents en hen with hnew | hold
      · rw [hnew]
        exact hr2
      · simp [ConversationStack.clear] at hold

/-- Every engine state reachable from startup satisfies the invariant. -/
theorem engineReach_inv (e : EngineNav) (h : EngineReach e) : EngineInv e := by
  induction h with
  | init t h1 h2 =>
    refine ⟨h1, h2, ?_⟩
    intro u s hu
    simp [lookupT] at hu
  | @msg_step e0 user message route res e' hreach heq ih =>
    obtain ⟨res2, e2, heq2, hinv2, _⟩ := processNav_spec e0 user message route ih
    rw [heq] at heq2
    injection heq2 with heq2
    injection heq2 with _ heq2
    rw [heq2]
    exact hinv2
  | @reset_step e0 user e' hreach heq ih =>
    obtain ⟨e2, heq2, hinv2⟩ := reset_conversation_spec e0 user ih
    rw [heq] at heq2
    injection heq2 with heq2
    rw [heq2]
    exact hinv2

/-- **C9.** In every engine state reachable from startup by any sequence
of `process_message` and `reset_conversation` calls, every entry stored in
any session's navigation stack carries a node id that exists in the
decision tree's node map; consequently no navigation step can fail — in
particular the back-navigation branch's lookup of the popped-to previous
node always succeeds (the model returns `none` exactly where Python would
raise, and it never does). -/
theorem C9_stack_entries_resolve (e : EngineNav) (h : EngineReach e) :
    (∀ u s, lookupT e.ustacks u = some s →
       ∀ en ∈ s.stack, (lookupT e.tree.nodes en.node_id).isSome = true) ∧
    (∀ user message route, (processNav e user message route).isSome = true) ∧
    (∀ user, (reset_conversation e user).isSome = true) := by
  have hinv := engineReach_inv e h
  refine ⟨?_, ?_, ?_⟩
  · intro u s hu en hen
    exact (hinv.2.2 u s hu).2 en hen
  · intro user message route
    obtain ⟨res, e', heq, _, _⟩ := processNav_spec e user message route hinv
    rw [heq]
    rfl
  · intro user
    obtain ⟨e', heq, _⟩ := reset_conversation_spec e user hinv
    rw [heq]
    rfl

/-- Closed instantiation of `C9_stack_entries_resolve` on the startup
state with the two-node graph `t1`. -/
theorem C9_witness :
    EngineReach ⟨t1, []⟩ ∧
    ((∀ u s, lookupT (⟨t1, []⟩ : EngineNav).ustacks u = some s →
        ∀ en ∈ s.stack,
          (lookupT (⟨t1, []⟩ : EngineNav).tree.nodes en.node_id).isSome = true) ∧
     (∀ user message route,
        (processNav ⟨t1, []⟩ user message route).isSome = true) ∧
     (∀ user, (reset_conversation ⟨t1, []⟩ user).isSome = true)) :=
  ⟨EngineReach.init t1 rfl (by decide),
   C9_stack_entries_resolve ⟨t1, []⟩ (EngineReach.init t1 rfl (by decide))⟩

/-- **C10.** Any message that strips and lowercases to `"undo"` is fully
handled by the back-navigation branch of `process_message` (its reply is
tagged `"Navigation"`), so the shopping-cart undo handler guarded by
`current_state.startswith("cart")` is unreachable via the message
`"undo"` and `ShoppingCart.undo` is never invoked by it. -/
theorem C10_undo_goes_to_back_navigation (e : EngineNav) (user message : Tok)
    (route : Route) (h : EngineReach e)
    (hmsg : lowerL (stripL message) = str "undo") :
    ∃ res e', processNav e user message route = some (res, e') ∧
      res.module = str "Navigation" ∧ res.module ≠ str "Cart Undo" := by
  have hinv := engineReach_inv e h
  obtain ⟨res, e', heq, _, hmod⟩ := processNav_spec e user message route hinv
  have hne : stripL message ≠ [] := by
    intro hcontr
    rw [hcontr] at hmsg
    exact absurd hmsg (by decide)
  have hmem : lowerL (stripL message) ∈ backCommands := by
    rw [hmsg]
    decide
  have hnav := hmod hne hmem
  refine ⟨res, e', heq, hnav, ?_⟩
  rw [hnav]
  decide

/-- Closed instantiation of `C10_undo_goes_to_back_navigation`: the
message `" UNDO "` on the startup state. -/
theorem C10_witness :
    EngineReach ⟨t1, []⟩ ∧
    lowerL (stripL (str " UNDO ")) = str "undo" ∧
    (∃ res e', processNav ⟨t1, []⟩ (str "u") (str " UNDO ") Route.early =
        some (res, e') ∧
      res.module = str "Navigation" ∧ res.module ≠ str "Cart Undo") :=
  ⟨EngineReach.init t1 rfl (by decide), by decide,
   C10_undo_goes_to_back_navigation ⟨t1, []⟩ (str "u") (str " UNDO ")
     Route.early (EngineReach.init t1 rfl (by decide)) (by decide)⟩
